import Mathlib

/-!
# Ikemen-GO sound core (`src/sound.go`): sound-bank loader, voice pool, normalizer

A shallow embedding of the functions of `src/sound.go` and theorems about them.

Conventions of the embedding:
* Go `uint16`/`uint32` values are `Nat`, `int32` values are `Int`; the places where
  a width matters (decoding of the little-endian fields) reduce explicitly.
* A Go `(value, error)` result is an `Except Err value`; a Go run-time panic
  (index out of range, nil dereference) is `none` of an `Option`.
* A pointer to a slot of a slice (`&s.channels[i]`) is the index `i`.
* `float32`/`float64` values are elements of an ordered field (rationals for the
  voice pool, an arbitrary linear ordered field for the normalizer).
-/

namespace Ikemen

/-! ## Constants -/

def audioOutLen : Nat := 2048
def audioFrequency : Nat := 48000
def audioPrecision : Nat := 4
def audioResampleQuality : Nat := 3

/-! ## Normalizer

The samples and gains are `float64` in the source; here they are elements of a linear
ordered field `α` (the reals, or the rationals when a value is computed), and `math.Pow`
is a parameter `pow`. -/

/-- Modelled from the spec: the fields of the configuration singleton `sys` (declared
outside `src/sound.go`) that the normalizer reads: "a boolean enabling cross-voice
ducking" and the "master volume, per-category (music/effects) volume percentages". -/
structure Sys where
  audioDucking : Bool
  wavVolume : Int
  masterVolume : Int
  deriving DecidableEq, Repr

structure NormalizerLR (α : Type) where
  heri : α
  herihenka : α
  fue : α
  heikin : α
  katayori : α
  katayori2 : α
  deriving DecidableEq, Repr

structure Normalizer (α : Type) where
  mul : α
  l : NormalizerLR α
  r : NormalizerLR α
  deriving DecidableEq, Repr

section Normalizer

variable {α : Type} [LinearOrderedField α]

/-- Function `math.Copysign(x, y)` on numbers: `x` with the sign of `y`. -/
def copysign (x y : α) : α := if y < 0 then -|x| else |x|

def NewNormalizer : Normalizer α :=
  { mul := 4, l := ⟨1, 0, 1, 1 / 32, 0, 0⟩, r := ⟨1, 0, 1, 1 / 32, 0, 0⟩ }

/-- Method `(n *NormalizerLR) process(bai, sam)`: the state afterwards, the returned gain
and the sample written back through `sam`. -/
def NormalizerLR.process (pow : α → α → α) (n : NormalizerLR α) (bai sam : α) :
    NormalizerLR α × α × α :=
  let katayori := n.katayori + (sam - n.katayori) / ((audioFrequency : α) / 110 + 1)
  let katayori2 := n.katayori2 + (sam - n.katayori2) / ((audioFrequency : α) / 112640 + 1)
  let s := (katayori2 - katayori) * bai
  let branch : α × α × α :=
    if |s| > 1 then
      (bai * pow |s| (-n.heri),
       n.herihenka + 32 * (1 - n.heri) / ((audioFrequency : α) + 32),
       copysign 1 s)
    else
      let tmp := (1 - pow (1 - |s|) 64) * pow (1 / 2 - |s|) 3
      (bai + bai * (n.heri * (1 / 32 - n.heikin) / n.fue + tmp * n.fue * (1 - n.heri) / 32) /
          ((audioFrequency : α) * 2 / 8 + 1),
       n.herihenka - (1 / 2 - n.heikin) * n.heri / ((audioFrequency : α) * 2),
       s)
  let bai := branch.1
  let herihenka := branch.2.1
  let s := branch.2.2
  let fue := n.fue + (1 - n.fue * (|s| + 1 / 32)) / ((audioFrequency : α) * 2)
  let heikin := n.heikin + (|s| - n.heikin) / ((audioFrequency : α) * 2)
  let heri := n.heri + herihenka
  let heri := if heri < 0 then 0 else if heri > 0 then 1 else heri
  (⟨heri, herihenka, fue, heikin, katayori, katayori2⟩, bai, s)

/-- The loop `for i := range samples[:s]` of `Normalizer.Stream` over the frames pulled
from the wrapped source: the normalizer afterwards and the frames written back. -/
def Normalizer.streamLoop (sys : Sys) (pow : α → α → α) :
    Normalizer α → List (α × α) → Normalizer α × List (α × α)
  | n, [] => (n, [])
  | n, (sl, sr) :: rest =>
    let pl := n.l.process pow n.mul sl
    let pr := n.r.process pow n.mul sr
    let lmul := pl.2.1
    let rmul := pr.2.1
    let mul : α :=
      if sys.audioDucking then min 16 (min lmul rmul)
      else 1 / 2 * ((sys.wavVolume : α) * (sys.masterVolume : α) * (1 / 10000))
    let res := Normalizer.streamLoop sys pow ⟨mul, pl.1, pr.1⟩ rest
    (res.1, (pl.2.2, pr.2.2) :: res.2)

/-- Method `(n *Normalizer) Stream(samples)`. One call `n.streamer.Stream(samples)` of
the wrapped source is the function `inner`: the buffer as the source leaves it, the number
`s` of frames it filled and its `ok`. The result is the normalizer afterwards, the buffer,
`s` and `ok`; `none` is the panic of `samples[:s]` when `s` exceeds the buffer. -/
def Normalizer.Stream (sys : Sys) (pow : α → α → α)
    (inner : List (α × α) → List (α × α) × Nat × Bool)
    (n : Normalizer α) (samples : List (α × α)) :
    Option (Normalizer α × List (α × α) × Nat × Bool) :=
  let filled := (inner samples).1
  let s := (inner samples).2.1
  let ok := (inner samples).2.2
  if s > filled.length then none
  else
    let res := Normalizer.streamLoop sys pow n (filled.take s)
    some (res.1, res.2 ++ filled.drop s, s, ok)

/-- The value the gain takes when ducking is disabled:
`0.5 * (float64(sys.wavVolume) * float64(sys.masterVolume) * 0.0001)`. -/
def staticGain (sys : Sys) : α :=
  1 / 2 * ((sys.wavVolume : α) * (sys.masterVolume : α) * (1 / 10000))

/-- Bounds that every channel state of a running normalizer satisfies: the ratio
coefficient is in `[0, 1]`, the tracker `fue` in `[32/33, 32]` and the running mean in
`[0, 1]`. -/
def NormalizerLR.InBounds (st : NormalizerLR α) : Prop :=
  (0 ≤ st.heri ∧ st.heri ≤ 1) ∧ (32 / 33 ≤ st.fue ∧ st.fue ≤ 32) ∧
    (0 ≤ st.heikin ∧ st.heikin ≤ 1)

end Normalizer

/-! ## Files and little-endian fields -/

/-- Errors a load can return. -/
inductive Err where
  /-- Failure of `os.Open`. -/
  | notFound
  /-- Value `io.EOF`: nothing left to read. -/
  | EOF
  /-- Value `io.ErrUnexpectedEOF`: a fixed-size read got only part of its bytes. -/
  | ErrUnexpectedEOF
  /-- Value `Error("Unrecognized SND file, invalid header")`. -/
  | invalidHeader
  /-- An error returned by the external decoder `wav.Decode`. -/
  | decode (code : Nat)
  /-- Value `os.ErrClosed`: the file has already been closed. -/
  | closed
  deriving DecidableEq, Repr

/-- An open read-only file (`*os.File`): its bytes and the read position. -/
structure File where
  data : List UInt8
  pos : Nat
  deriving DecidableEq, Repr

/-- Call `os.Open(filename)` against a file system `fs`. -/
def osOpen (fs : String → Option (List UInt8)) (filename : String) : Except Err File :=
  match fs filename with
  | none => .error .notFound
  | some d => .ok ⟨d, 0⟩

/-- Method `f.Read(buf)` with `len(buf) = n > 0` on a regular file: at end of file it
returns `0, io.EOF`, otherwise the next `min n remaining` bytes (this is `buf[:n]`). -/
def File.Read (f : File) (n : Nat) : Except Err (List UInt8) × File :=
  let rest := f.data.drop f.pos
  if rest.isEmpty then (.error .EOF, f)
  else (.ok (rest.take n), { f with pos := f.pos + (rest.take n).length })

/-- The `io.ReadFull` of `n` bytes that `binary.Read` performs: all `n` bytes, or
`io.EOF` when none is left, or `io.ErrUnexpectedEOF` when fewer than `n` are left. -/
def File.ReadFull (f : File) (n : Nat) : Except Err (List UInt8) × File :=
  let rest := f.data.drop f.pos
  if n ≤ rest.length then (.ok (rest.take n), { f with pos := f.pos + n })
  else if rest.isEmpty then (.error .EOF, f)
  else (.error .ErrUnexpectedEOF, { f with pos := f.pos + rest.length })

/-- Method `f.Seek(ofs, 0)`: absolute positioning (its error result is ignored by the caller). -/
def File.Seek (f : File) (ofs : Nat) : File := { f with pos := ofs }

/-- Method `f.Close()`, given whether the file has been closed before: closing a file a
second time returns `os.ErrClosed`. -/
def File.Close (_f : File) (closed : Bool) : Option Err :=
  if closed then some .closed else none

/-- Modelled from the spec: the helper `chk` of this repository, which is not in
`src/sound.go` and which the spec does not describe; as its name and its use on results
that cannot be returned say, it panics when it is given an error and does nothing
otherwise. `none` is the panic. -/
def chk (err : Option Err) : Option Unit :=
  match err with
  | none => some ()
  | some _ => none

/-- Little-endian value of a byte string (`binary.LittleEndian`). -/
def leNat : List UInt8 → Nat
  | [] => 0
  | b :: bs => b.toNat + 256 * leNat bs

/-- Reinterpretation of a `uint32` bit pattern as `int32` (two's complement). -/
def toInt32 (u : Nat) : Int :=
  if u < 2 ^ 31 then (u : Int) else (u : Int) - 2 ^ 32

/-- Call `binary.Read(f, binary.LittleEndian, &x)` for `x` a `uint16`. -/
def readU16 (f : File) : Except Err Nat × File :=
  match f.ReadFull 2 with
  | (.ok bs, f1) => (.ok (leNat bs), f1)
  | (.error e, f1) => (.error e, f1)

/-- Call `binary.Read(f, binary.LittleEndian, &x)` for `x` a `uint32`. -/
def readU32 (f : File) : Except Err Nat × File :=
  match f.ReadFull 4 with
  | (.ok bs, f1) => (.ok (leNat bs), f1)
  | (.error e, f1) => (.error e, f1)

/-- Call `binary.Read(f, binary.LittleEndian, &num)` for `num` a `[2]int32`: eight bytes,
two little-endian signed words. -/
def readNum (f : File) : Except Err (Int × Int) × File :=
  match f.ReadFull 8 with
  | (.ok bs, f1) => (.ok (toInt32 (leNat (bs.take 4)), toInt32 (leNat (bs.drop 4))), f1)
  | (.error e, f1) => (.error e, f1)

/-! ## Sound -/

/-- Type `beep.Format`. -/
structure Format where
  SampleRate : Nat
  NumChannels : Nat
  Precision : Nat
  deriving DecidableEq, Repr

/-- A `Sound`: its `beep.Buffer`, that is a format and the stored stereo frames. -/
structure Sound where
  format : Format
  frames : List (Int × Int)
  deriving DecidableEq, Repr

/-- Method `Buffer.Len()`: the number of frames. -/
def Sound.Len (s : Sound) : Nat := s.frames.length

def newSound (sampleRate : Nat) : Sound :=
  ⟨⟨sampleRate, 2, audioPrecision⟩, []⟩

/-- The external decoder `wav.Decode` followed by draining its streamer: from the file at
its current position, either an error or the sample rate and the decoded frames. When
`wav.Decode` returns an error it has closed the reader it was given (the `*os.File`): the
callers of `readSound` keep track of that. -/
abbrev Decoder := File → Except Err (Nat × List (Int × Int))

/-- Function `readSound(f, ofs)`: decode at the current position, then
`newSound(fmt.SampleRate)` and `Buffer.Append(s)`. -/
def readSound (wavDecode : Decoder) (f : File) : Except Err Sound :=
  match wavDecode f with
  | .error e => .error e
  | .ok (rate, frames) => .ok { newSound rate with frames := (newSound rate).frames ++ frames }

/-! ## Snd: the sound bank -/

/-- The Go map `map[[2]int32]*Sound` as an association list with unique keys. -/
abbrev Table := List ((Int × Int) × Sound)

/-- Map read `t[k]`. -/
def Table.get (t : Table) (k : Int × Int) : Option Sound :=
  match t with
  | [] => none
  | (k1, v) :: rest => if k1 = k then some v else Table.get rest k

/-- Map write `t[k] = v`. -/
def Table.set (t : Table) (k : Int × Int) (v : Sound) : Table :=
  (k, v) :: t.filter (fun p => decide (p.1 ≠ k))

structure Snd where
  table : Table
  ver : Nat
  ver2 : Nat
  deriving DecidableEq, Repr

def newSnd : Snd := ⟨[], 0, 0⟩

/-- The magic literal `"ElecbyteSnd\x00"`. -/
def sndMagic : List UInt8 := [69, 108, 101, 99, 98, 121, 116, 101, 83, 110, 100, 0]

/-- The `for i := uint32(0); i < loops; i++` loop of `LoadSndFiltered`, by the number of
iterations left. The state is whether the file has been closed (by a failed `wav.Decode`),
the table being filled and `subHeaderOffset`; the result comes with whether the file is
closed when the loop is left. On a closed file the first read of an iteration fails. -/
def loadLoop (wavDecode : Decoder) (keepItem : Int × Int → Bool) (max : Nat) (f : File) :
    Nat → Bool → Table → Nat → Except Err Table × Bool
  | 0, closed, table, _ => (.ok table, closed)
  | loops + 1, closed, table, subHeaderOffset =>
    if closed then (.error .closed, true)
    else
      let f0 := f.Seek subHeaderOffset
      match readU32 f0 with
      | (.error e, _) => (.error e, false)
      | (.ok nextSubHeaderOffset, f1) =>
        match readU32 f1 with
        | (.error e, _) => (.error e, false)
        | (.ok _subFileLenght, f2) =>
          match readNum f2 with
          | (.error e, _) => (.error e, false)
          | (.ok num, f3) =>
            -- the position `wav.Decode` leaves behind is never used: the next iteration
            -- starts with an absolute `Seek`, so `f3` is passed on as it is
            if keepItem num then
              match table.get num with
              | some _ => loadLoop wavDecode keepItem max f3 loops false table nextSubHeaderOffset
              | none =>
                match readSound wavDecode f3 with
                | .error e =>
                  -- `wav.Decode` has closed the file
                  if max > 0 then (.error e, true)
                  else loadLoop wavDecode keepItem max f3 loops true table nextSubHeaderOffset
                | .ok tmp =>
                  if max > 0 then (.ok (table.set num tmp), false)
                  else
                    loadLoop wavDecode keepItem max f3 loops false (table.set num tmp)
                      nextSubHeaderOffset
            else loadLoop wavDecode keepItem max f3 loops false table nextSubHeaderOffset

/-- The body of `LoadSndFiltered` after the file is open and `defer chk(f.Close())` is
registered: what it returns, and whether the file is closed by then. -/
def loadBody (wavDecode : Decoder) (keepItem : Int × Int → Bool) (max : Nat) (f : File) :
    Except Err Snd × Bool :=
  match f.Read 12 with
  | (.error e, _) => (.error e, false)
  | (.ok buf, f) =>
    if buf ≠ sndMagic then (.error .invalidHeader, false)
    else
      match readU16 f with
      | (.error e, _) => (.error e, false)
      | (.ok ver, f) =>
        match readU16 f with
        | (.error e, _) => (.error e, false)
        | (.ok ver2, f) =>
          match readU32 f with
          | (.error e, _) => (.error e, false)
          | (.ok numberOfSounds, f) =>
            match readU32 f with
            | (.error e, _) => (.error e, false)
            | (.ok subHeaderOffset, f) =>
              let loops := if max > 0 ∧ max < numberOfSounds then max else numberOfSounds
              match loadLoop wavDecode keepItem max f loops false [] subHeaderOffset with
              | (.error e, closed) => (.error e, closed)
              | (.ok table, closed) => (.ok ⟨table, ver, ver2⟩, closed)

/-- Function `LoadSndFiltered(filename, keepItem, max)`; `max` is a `uint32`. The outer
`none` is a panic: whatever the body returns, the deferred `chk(f.Close())` runs, and it
panics when the file has already been closed. -/
def LoadSndFiltered (fs : String → Option (List UInt8)) (wavDecode : Decoder)
    (filename : String) (keepItem : Int × Int → Bool) (max : Nat) : Option (Except Err Snd) :=
  match osOpen fs filename with
  | .error e => some (.error e)
  | .ok f =>
    match chk (f.Close (loadBody wavDecode keepItem max f).2) with
    | none => none
    | some _ => some (loadBody wavDecode keepItem max f).1

def LoadSnd (fs : String → Option (List UInt8)) (wavDecode : Decoder)
    (filename : String) : Option (Except Err Snd) :=
  LoadSndFiltered fs wavDecode filename (fun gn => decide (gn.1 ≥ 0 ∧ gn.2 ≥ 0)) 0

def Snd.Get (s : Snd) (gn : Int × Int) : Option Sound := s.table.get gn

/-- Function `loadFromSnd(filename, g, s, max)`; the outer `none` is a panic of
`LoadSndFiltered`. -/
def loadFromSnd (fs : String → Option (List UInt8)) (wavDecode : Decoder)
    (filename : String) (g s : Int) (max : Nat) : Option (Except Err Sound) :=
  match LoadSndFiltered fs wavDecode filename (fun gn => decide (gn.1 = g ∧ gn.2 = s)) max with
  | none => none
  | some (.error e) => some (.error e)
  | some (.ok snd) =>
    match snd.table.get (g, s) with
    | none => some (.ok (newSound 11025))
    | some tmp => some (.ok tmp)

/-! ### Written bank files (the layout of the container format)

The writer's side of the round trip: how the fields are laid out in a file. -/

/-- Little-endian encoding of `v` on `n` bytes. -/
def putLE : Nat → Nat → List UInt8
  | 0, _ => []
  | n + 1, v => UInt8.ofNat (v % 256) :: putLE n (v / 256)

/-- Two's-complement little-endian encoding of an `int32`. -/
def putI32 (v : Int) : List UInt8 := putLE 4 (v % 2 ^ 32).toNat

/-- One entry of a bank file: where its sub-header sits and the four sub-header fields. -/
structure SndEntry where
  offset : Nat
  next : Nat
  length : Nat
  group : Int
  item : Int
  deriving DecidableEq, Repr

/-- The (group, item) key of an entry. -/
def SndEntry.key (e : SndEntry) : Int × Int := (e.group, e.item)

/-- The 16 bytes of a sub-header. -/
def SndEntry.subHeader (e : SndEntry) : List UInt8 :=
  putLE 4 e.next ++ putLE 4 e.length ++ putI32 e.group ++ putI32 e.item

/-- The file positioned on the embedded payload of an entry, right after its sub-header. -/
def SndEntry.payload (data : List UInt8) (e : SndEntry) : File := ⟨data, e.offset + 16⟩

/-- The fields of an entry fit their widths. -/
def SndEntry.InRange (e : SndEntry) : Prop :=
  e.offset < 2 ^ 32 ∧ e.next < 2 ^ 32 ∧ e.length < 2 ^ 32 ∧
  (-(2 ^ 31 : Int) ≤ e.group ∧ e.group < 2 ^ 31) ∧ (-(2 ^ 31 : Int) ≤ e.item ∧ e.item < 2 ^ 31)

instance (e : SndEntry) : Decidable e.InRange := by
  unfold SndEntry.InRange; infer_instance

/-- The entries `es` are laid out in `data` as a chain starting at offset `ofs`: each
sub-header is at its entry's offset and its next-offset field is the offset of the next entry. -/
def Chained (data : List UInt8) : Nat → List SndEntry → Prop
  | _, [] => True
  | ofs, e :: es =>
    e.offset = ofs ∧ e.InRange ∧ (data.drop ofs).take 16 = e.subHeader ∧ Chained data e.next es

instance decChained (data : List UInt8) : (ofs : Nat) → (es : List SndEntry) →
    Decidable (Chained data ofs es)
  | _, [] => isTrue trivial
  | ofs, e :: es =>
    have := decChained data e.next es
    by unfold Chained; infer_instance

/-- A well-formed bank file: the 24-byte header (magic, version pair, number of sounds,
offset of the first sub-header) and the chain of its entries. -/
structure WellFormed (data : List UInt8) (ver ver2 first : Nat) (es : List SndEntry) : Prop where
  header : data.take 24 = sndMagic ++ putLE 2 ver ++ putLE 2 ver2 ++ putLE 4 es.length ++ putLE 4 first
  ver_lt : ver < 2 ^ 16
  ver2_lt : ver2 < 2 ^ 16
  count_lt : es.length < 2 ^ 32
  first_lt : first < 2 ^ 32
  chain : Chained data first es

/-- What the scan of `LoadSndFiltered` does on a list of entries one after the other
(the entries the loop visits), with the byte-level reading taken out; as in `loadLoop`, the
state and the result carry whether the file has been closed. -/
def scanEntries (wavDecode : Decoder) (data : List UInt8) (keepItem : Int × Int → Bool)
    (max : Nat) : List SndEntry → Bool → Table → Except Err Table × Bool
  | [], closed, table => (.ok table, closed)
  | e :: es, closed, table =>
    if closed then (.error .closed, true)
    else if keepItem e.key then
      match table.get e.key with
      | some _ => scanEntries wavDecode data keepItem max es false table
      | none =>
        match readSound wavDecode (e.payload data) with
        | .error err =>
          if max > 0 then (.error err, true)
          else scanEntries wavDecode data keepItem max es true table
        | .ok tmp =>
          if max > 0 then (.ok (table.set e.key tmp), false)
          else scanEntries wavDecode data keepItem max es false (table.set e.key tmp)
    else scanEntries wavDecode data keepItem max es false table

/-! ### A small bank file -/

/-- A stand-in for the external decoder: a payload is the byte `R` followed by one byte
`r`, and decodes to one frame at `r * 1000` Hz; anything else is an error. -/
def exampleDecode : Decoder := fun f =>
  match f.data.drop f.pos with
  | 82 :: r :: _ => .ok (r.toNat * 1000, [(1, -1)])
  | _ => .error (.decode 7)

def exampleEntry1 : SndEntry := ⟨24, 42, 2, 1, 0⟩

def exampleEntry2 : SndEntry := ⟨42, 60, 2, 3, 5⟩

/-- A bank file of two entries, keys (1,0) and (3,5), version 4.0. -/
def exampleBank : List UInt8 :=
  sndMagic ++ putLE 2 4 ++ putLE 2 0 ++ putLE 4 2 ++ putLE 4 24
    ++ exampleEntry1.subHeader ++ [82, 8] ++ exampleEntry2.subHeader ++ [82, 11]

/-! ## float32

Go's `float32`, as far as `sound.go` computes with it: a finite value, an infinity, or NaN.
Overflow, the infinities and NaN follow IEEE 754, which Go implements. Two things are left
out: a finite result is kept exact, where the machine rounds it to 24 significant bits, and
there is no negative zero (a non-zero value divided by zero is the infinity with the sign
of the dividend). -/

inductive F32 where
  | fin (q : ℚ)
  | inf (negative : Bool)
  | nan
  deriving DecidableEq, Repr

namespace F32

/-- A numeric constant of the source. -/
instance (n : Nat) : OfNat F32 n := ⟨fin (n : ℚ)⟩

/-- The magnitude from which rounding to nearest gives an infinity, `2^128 - 2^103` (the
largest finite `float32` is `2^128 - 2^104`). -/
def overflow : ℚ := 2 ^ 128 - 2 ^ 103

/-- The `float32` of an exact result. -/
def ofRat (q : ℚ) : F32 :=
  if overflow ≤ q then inf false else if q ≤ -overflow then inf true else fin q

/-- The conversion `float32(n)` of an `int32`. -/
def ofInt (n : Int) : F32 := ofRat (n : ℚ)

def neg : F32 → F32
  | fin q => fin (-q)
  | inf s => inf (!s)
  | nan => nan

/-- Operator `+`: infinities of opposite sign add up to NaN. -/
def add : F32 → F32 → F32
  | fin a, fin b => ofRat (a + b)
  | fin _, inf s => inf s
  | inf s, fin _ => inf s
  | inf s, inf t => if s = t then inf s else nan
  | _, _ => nan

/-- Operator `-`. -/
def sub (x y : F32) : F32 := add x (neg y)

/-- Operator `*`: zero times an infinity is NaN. -/
def mul : F32 → F32 → F32
  | fin a, fin b => ofRat (a * b)
  | fin a, inf s => if a = 0 then nan else inf (xor s (decide (a < 0)))
  | inf s, fin b => if b = 0 then nan else inf (xor s (decide (b < 0)))
  | inf s, inf t => inf (xor s t)
  | _, _ => nan

/-- Operator `/`: `0 / 0` and an infinity over an infinity are NaN. -/
def div : F32 → F32 → F32
  | fin a, fin b =>
    if b = 0 then (if a = 0 then nan else inf (decide (a < 0))) else ofRat (a / b)
  | fin _, inf _ => fin 0
  | inf s, fin b => inf (xor s (decide (b < 0)))
  | _, _ => nan

/-- Operator `<`: every comparison with NaN is false. -/
def lt : F32 → F32 → Bool
  | fin a, fin b => decide (a < b)
  | fin _, inf s => !s
  | inf s, fin _ => s
  | inf s, inf t => s && !t
  | _, _ => false

instance : Neg F32 := ⟨neg⟩

instance : Add F32 := ⟨add⟩

instance : Sub F32 := ⟨sub⟩

instance : Mul F32 := ⟨mul⟩

instance : Div F32 := ⟨div⟩

instance : LT F32 := ⟨fun x y => lt x y = true⟩

instance (x y : F32) : Decidable (x < y) := inferInstanceAs (Decidable (lt x y = true))

/-- Whether a value is a number in `[0, 512]`. -/
def inRange : F32 → Bool
  | fin q => decide (0 ≤ q ∧ q ≤ 512)
  | _ => false

end F32

/-- Function `math.Min` of the Go standard library, on the `float64` of two `float32`
values, converted back (both conversions are exact): `Min(x, -Inf) = Min(-Inf, x) = -Inf`,
`Min(x, NaN) = Min(NaN, x) = NaN`. -/
def math.Min : F32 → F32 → F32
  | .inf true, _ => .inf true
  | _, .inf true => .inf true
  | .nan, _ => .nan
  | _, .nan => .nan
  | .inf false, y => y
  | x, .inf false => x
  | .fin a, .fin b => .fin (min a b)

/-- Function `math.Max` of the Go standard library, in the same way:
`Max(x, +Inf) = Max(+Inf, x) = +Inf`, `Max(x, NaN) = Max(NaN, x) = NaN`. -/
def math.Max : F32 → F32 → F32
  | .inf false, _ => .inf false
  | _, .inf false => .inf false
  | .nan, _ => .nan
  | _, .nan => .nan
  | .inf true, y => y
  | x, .inf true => x
  | .fin a, .fin b => .fin (max a b)

/-! ## SoundEffect and SoundChannel

The playback pipeline of a channel is made of objects of the `beep` library that point to
each other: `ctrl.Streamer` is the resampler, which wraps `sfx`, which wraps the looper,
which wraps `streamer`. The embedding keeps what `sound.go` itself reads or writes: the
cursor of `streamer`, the fields of `sfx`, and whether `ctrl.Streamer` is set. The
registration `speaker.Play(ctrl)` hands the same `ctrl` object to the output device, which
is outside this file; the device sees the `ctrl` field of the channel. -/

/-- The `beep.StreamSeeker` returned by `Buffer.Streamer(0, Len())`: a cursor over the frames. -/
structure StreamSeeker where
  pos : Nat
  len : Nat
  deriving DecidableEq, Repr

/-- Method `Position()` of the cursor. -/
def StreamSeeker.Position (st : StreamSeeker) : Nat := st.pos

/-- A `SoundEffect`; `loopCount` stands for its `streamer`, the `beep.Loop(loopCount, _)`
around the cursor of the channel, and `x` is the pointer to a coordinate (an address). -/
structure SoundEffect where
  loopCount : Int
  volume : F32
  ls : F32
  p : F32
  x : Option Nat
  deriving DecidableEq, Repr

/-- The `beep.Resample(quality, srcRate, dstRate, sfx)` stage, with
`dstRate = audioFrequency / freqmul`. -/
structure Resampler where
  quality : Nat
  srcRate : Nat
  freqmul : F32
  deriving DecidableEq, Repr

/-- A `beep.Ctrl`: `Streamer` is `none` once the source has been detached. -/
structure Ctrl where
  Streamer : Option Resampler
  Paused : Bool
  deriving DecidableEq, Repr

structure SoundChannel where
  streamer : Option StreamSeeker
  sfx : Option SoundEffect
  ctrl : Option Ctrl
  sound : Option Sound
  deriving DecidableEq, Repr

/-- The zero value of `SoundChannel` (what `make([]SoundChannel, n)` is filled with). -/
instance : Inhabited SoundChannel := ⟨⟨none, none, none, none⟩⟩

namespace SoundChannel

/-- Method `Play(sound, loop, freqmul)`; a nil `sound` is `none`. -/
def Play (s : SoundChannel) (sound : Option Sound) (loop : Bool) (freqmul : F32) :
    SoundChannel :=
  match sound with
  | none => s
  | some snd =>
    let loopCount : Int := if loop then -1 else 1
    { sound := some snd
      streamer := some ⟨0, snd.Len⟩
      sfx := some { loopCount := loopCount, volume := 256, ls := 0, p := 0, x := none }
      ctrl := some ⟨some ⟨audioResampleQuality, snd.format.SampleRate, freqmul⟩, false⟩ }

def IsPlaying (s : SoundChannel) : Bool := s.sound.isSome

def Stop (s : SoundChannel) : SoundChannel :=
  { s with
    ctrl := match s.ctrl with
      | some c => some { c with Streamer := none }
      | none => none
    sound := none }

/-- Method `SetVolume(vol)`; `none` is the nil dereference of `s.sfx`. -/
def SetVolume (s : SoundChannel) (vol : F32) : Option SoundChannel :=
  match s.ctrl with
  | none => some s
  | some _ =>
    match s.sfx with
    | none => none
    | some e => some { s with sfx := some { e with volume := math.Max 0 (math.Min vol 512) } }

/-- Method `SetPan(p, ls, x)`; `none` is the nil dereference of `s.sfx`. -/
def SetPan (s : SoundChannel) (p ls : F32) (x : Option Nat) : Option SoundChannel :=
  match s.ctrl with
  | none => some s
  | some _ =>
    match s.sfx with
    | none => none
    | some e => some { s with sfx := some { e with ls := ls, x := x, p := p * ls } }

end SoundChannel

/-! ## SoundChannels: the pool -/

/-- Modelled from the spec: the helper `Min` of this repository, which is not in
`src/sound.go`; the spec says the explicit index is "clamped to ≤ 255", so `Min(255, ch)`
is the smaller of its two arguments. -/
def Min (a b : Int) : Int := if a ≤ b then a else b

structure SoundChannels where
  channels : List SoundChannel
  deriving DecidableEq, Repr

namespace SoundChannels

def count (s : SoundChannels) : Int := (s.channels.length : Int)

/-- The loop `for i := s.count()-1; i >= size; i-- { s.channels[i].Stop() }` of `SetSize`,
by the number of iterations left; `none` is the index-out-of-range panic. -/
def stopLoop : Nat → Int → List SoundChannel → Option (List SoundChannel)
  | 0, _, chs => some chs
  | n + 1, i, chs =>
    if i < 0 then none
    else
      match chs[i.toNat]? with
      | none => none
      | some c => stopLoop n (i - 1) (chs.set i.toNat c.Stop)

/-- Method `SetSize(size)`: the pool afterwards and the slots the call cut off, in index
order and as the call leaves them (`s.channels = s.channels[:size]` shortens the slice, the
slots past the new length stay in its backing array, where a `*SoundChannel` handed out
earlier still reaches them). With `size < 0` the loop walks below index 0 and panics. -/
def SetSize (s : SoundChannels) (size : Int) : Option (SoundChannels × List SoundChannel) :=
  if size > s.count then
    some (⟨s.channels ++ List.replicate (size - s.count).toNat default⟩, [])
  else if size < s.count then
    match stopLoop (s.count - size).toNat (s.count - 1) s.channels with
    | none => none
    | some chs =>
      if size < 0 then none else some (⟨chs.take size.toNat⟩, chs.drop size.toNat)
  else some (s, [])

def newSoundChannels (size : Int) : Option SoundChannels :=
  (SetSize ⟨[]⟩ size).map Prod.fst

/-- The loop `for i := 255; i >= 0; i--` of `New`, by the number of indices left: it
returns the first slot found not playing; the outer `none` is the index-out-of-range panic. -/
def scanDown (chs : List SoundChannel) : Nat → Option (Option Nat)
  | 0 => some none
  | i + 1 =>
    match chs[i]? with
    | none => none
    | some c => if !c.IsPlaying then some (some i) else scanDown chs i

/-- Method `New(ch, lowpriority)`: the pool afterwards and the slot returned (`none` for
nil); the outer `none` is a panic. -/
def New (s : SoundChannels) (ch : Int) (lowpriority : Bool) :
    Option (SoundChannels × Option Nat) :=
  let ch := Min 255 ch
  if ch ≥ 0 then
    -- `s.channels[ch]` is read only when `s.count() > ch`, so the read is in range
    if lowpriority && decide (s.count > ch) &&
        (match s.channels[ch.toNat]? with
          | some c => c.IsPlaying
          | none => false) then
      some (s, none)
    else
      match (if s.count < ch + 1 then (s.SetSize (ch + 1)).map Prod.fst else some s) with
      | none => none
      | some s1 =>
        match s1.channels[ch.toNat]? with
        | none => none
        | some c => some (⟨s1.channels.set ch.toNat c.Stop⟩, some ch.toNat)
  else
    match (if s.count < 256 then (s.SetSize 256).map Prod.fst else some s) with
    | none => none
    | some s1 =>
      match scanDown s1.channels 256 with
      | none => none
      | some r => some (s1, r)

/-- The loop of `reserveChannel` from index `i` on. -/
def reserveFrom : Nat → List SoundChannel → Option Nat
  | _, [] => none
  | i, c :: cs => if !c.IsPlaying then some i else reserveFrom (i + 1) cs

def reserveChannel (s : SoundChannels) : Option Nat := reserveFrom 0 s.channels

def Get (s : SoundChannels) (ch : Int) : Option SoundChannel :=
  if ch ≥ 0 ∧ ch < s.count then s.channels[ch.toNat]? else none

/-- The body of the loop of `Tick` on one channel; `none` is the nil dereference of
`streamer`. -/
def tickChannel (c : SoundChannel) : Option SoundChannel :=
  if c.IsPlaying then
    match c.streamer, c.sound with
    | some st, some snd => if st.Position ≥ snd.Len then some { c with sound := none } else some c
    | _, _ => none
  else some c

/-- The loop of `Tick` over the channels. -/
def tickAll : List SoundChannel → Option (List SoundChannel)
  | [] => some []
  | c :: cs =>
    match tickChannel c with
    | none => none
    | some c1 =>
      match tickAll cs with
      | none => none
      | some cs1 => some (c1 :: cs1)

def Tick (s : SoundChannels) : Option SoundChannels :=
  match tickAll s.channels with
  | none => none
  | some chs => some ⟨chs⟩

/-- Whether slot `i` exists and reports `IsPlaying`. -/
def playingAt (chs : List SoundChannel) (i : Nat) : Bool :=
  match chs[i]? with
  | some c => c.IsPlaying
  | none => false

/-- The number of voices that report `IsPlaying`. -/
def playingCount (s : SoundChannels) : Nat := (s.channels.filter SoundChannel.IsPlaying).length

end SoundChannels

/-! ### Sequences of calls on a pool -/

/-- One call on the pool or on one of its slots (the slot a `*SoundChannel` points to is
given by its index). -/
inductive PoolOp where
  | SetSize (size : Int)
  | New (ch : Int) (lowpriority : Bool)
  | reserveChannel
  | Play (slot : Nat) (sound : Option Sound) (loop : Bool) (freqmul : F32)
  | Stop (slot : Nat)
  | Tick
  deriving DecidableEq, Repr

/-- The size argument of a call, where it has one, is at most 256. -/
def PoolOp.SizeOK : PoolOp → Prop
  | .SetSize size => size ≤ 256
  | _ => True

/-- The pool after one call; `none` when the call panics or the slot does not exist. -/
def PoolOp.apply (s : SoundChannels) : PoolOp → Option SoundChannels
  | .SetSize size => (s.SetSize size).map Prod.fst
  | .New ch lowpriority =>
    match s.New ch lowpriority with
    | none => none
    | some (s1, _) => some s1
  | .reserveChannel => some s
  | .Play slot sound loop freqmul =>
    match s.channels[slot]? with
    | none => none
    | some c => some ⟨s.channels.set slot (c.Play sound loop freqmul)⟩
  | .Stop slot =>
    match s.channels[slot]? with
    | none => none
    | some c => some ⟨s.channels.set slot c.Stop⟩
  | .Tick => s.Tick

/-- The pool after a sequence of calls. -/
def runOps : SoundChannels → List PoolOp → Option SoundChannels
  | s, [] => some s
  | s, op :: ops =>
    match op.apply s with
    | none => none
    | some s1 => runOps s1 ops

/-! ## SoundEffect.Stream: volume and panning -/

/-- Modelled from the spec: the fields of the configuration singleton `sys` (declared
outside `src/sound.go`) that the effect reads: "a boolean enabling stereo panning, panning
range/width percentage, and world/stage coordinate bounds used for spatial pan mapping". -/
structure SysPan where
  stereoEffects : Bool
  xmin : F32
  xmax : F32
  panningRange : F32
  deriving DecidableEq, Repr

/-- The gains `lv, rv` that `SoundEffect.Stream` computes (lines 358 to 379) before it pulls
the samples of the wrapped source and multiplies their left side by `lv / 256` and their
right side by `rv / 256`; `mem` gives the value behind a coordinate pointer (`*s.x`). -/
def SoundEffect.gains (sys : SysPan) (mem : Nat → F32) (s : SoundEffect) : F32 × F32 :=
  if sys.stereoEffects && (s.x.isSome || decide (s.p ≠ 0)) then
    let r : F32 :=
      match s.x with
      | some a => ((sys.xmax - s.ls * mem a) - s.p) / (sys.xmax - sys.xmin)
      | none => ((sys.xmax - sys.xmin) / 2 - s.p) / (sys.xmax - sys.xmin)
    let sc := sys.panningRange / 100
    let off := (100 - sys.panningRange) / 200
    let lv := s.volume * 2 * (r * sc + off)
    let rv := s.volume * 2 * ((1 - r) * sc + off)
    let lv := if lv > 512 then 512 else if lv < 0 then 0 else lv
    let rv := if rv > 512 then 512 else if rv < 0 then 0 else rv
    (lv, rv)
  else (s.volume, s.volume)

/-- One call on a channel that touches its effect stage. -/
inductive ChannelOp where
  | Play (sound : Option Sound) (loop : Bool) (freqmul : F32)
  | SetVolume (vol : F32)
  | SetPan (p ls : F32) (x : Option Nat)
  deriving DecidableEq, Repr

/-- The channel after one call; `none` when the call panics. -/
def ChannelOp.apply (c : SoundChannel) : ChannelOp → Option SoundChannel
  | .Play sound loop freqmul => some (c.Play sound loop freqmul)
  | .SetVolume vol => c.SetVolume vol
  | .SetPan p ls x => c.SetPan p ls x

/-- The channel after a sequence of calls. -/
def runChannelOps : SoundChannel → List ChannelOp → Option SoundChannel
  | c, [] => some c
  | c, op :: ops =>
    match op.apply c with
    | none => none
    | some c1 => runChannelOps c1 ops

/-! ## Snd.play -/

/-- The `int32` expression `volumescale * 64 / 25`: the product wraps around at 32 bits and
the division truncates toward zero. -/
def volumeArg (volumescale : Int) : Int :=
  Int.tdiv (toInt32 ((volumescale * 64) % 2 ^ 32).toNat) 25

/-- Method `(s *Snd) play(gn, volumescale, pan)` on the pool `sys.soundChannels`: the pool
afterwards and the boolean returned; `none` is a panic. -/
def Snd.play (s : Snd) (pool : SoundChannels) (gn : Int × Int) (volumescale : Int) (pan : F32) :
    Option (SoundChannels × Bool) :=
  match pool.reserveChannel with
  | none => some (pool, false)
  | some i =>
    match pool.channels[i]? with
    | none => none
    | some c =>
      let sound := s.Get gn
      let c1 := c.Play sound false 1
      match c1.SetVolume (F32.ofInt (volumeArg volumescale)) with
      | none => none
      | some c2 =>
        match c2.SetPan pan 0 none with
        | none => none
        | some c3 => some (⟨pool.channels.set i c3⟩, sound.isSome)

/-! ### Sequences of calls on a pool and on its slots -/

/-- One call on the pool or on one of its slots, the calls on the effect stage of a slot
included. -/
inductive PoolCall where
  | pool (op : PoolOp)
  | SetVolume (slot : Nat) (vol : F32)
  | SetPan (slot : Nat) (p ls : F32) (x : Option Nat)
  deriving DecidableEq, Repr

/-- The pool after one call; `none` when the call panics or the slot does not exist. -/
def PoolCall.apply (s : SoundChannels) : PoolCall → Option SoundChannels
  | .pool op => op.apply s
  | .SetVolume slot vol =>
    match s.channels[slot]? with
    | none => none
    | some c =>
      match c.SetVolume vol with
      | none => none
      | some c1 => some ⟨s.channels.set slot c1⟩
  | .SetPan slot p ls x =>
    match s.channels[slot]? with
    | none => none
    | some c =>
      match c.SetPan p ls x with
      | none => none
      | some c1 => some ⟨s.channels.set slot c1⟩

/-- The pool after a sequence of calls. -/
def runCalls : SoundChannels → List PoolCall → Option SoundChannels
  | s, [] => some s
  | s, call :: calls =>
    match call.apply s with
    | none => none
    | some s1 => runCalls s1 calls

/-- Everything `Play` builds is present in a slot: cursor, effect stage and `ctrl`. -/
def SoundChannel.Built (c : SoundChannel) : Prop :=
  c.streamer.isSome = true ∧ c.sfx.isSome = true ∧ c.ctrl.isSome = true

/-- A slot with a bound asset or with a `ctrl` has everything `Play` builds. -/
def SoundChannel.Sane (c : SoundChannel) : Prop :=
  (c.sound.isSome = true ∨ c.ctrl.isSome = true) → c.Built

/-! ### A bank file with a payload that does not decode -/

def exampleEntryBad : SndEntry := ⟨24, 42, 2, 1, 0⟩

/-- A bank file of two entries, keys (1,0) and (3,5); the payload of the first does not
decode, the payload of the second does. -/
def exampleBankBad : List UInt8 :=
  sndMagic ++ putLE 2 4 ++ putLE 2 0 ++ putLE 4 2 ++ putLE 4 24
    ++ exampleEntryBad.subHeader ++ [0, 0] ++ exampleEntry2.subHeader ++ [82, 11]

/-! # Theorems -/

/-! ## The pool -/

namespace SoundChannels

theorem stopLoop_spec (n : Nat) : ∀ (m : Nat) (chs : List SoundChannel), n ≤ m → m ≤ chs.length →
    ∃ out, stopLoop n ((m : Int) - 1) chs = some out ∧ out.length = chs.length ∧
      ∀ j, out[j]? = if m - n ≤ j ∧ j < m then chs[j]?.map SoundChannel.Stop else chs[j]? := by
  induction n with
  | zero =>
    intro m chs _ _
    refine ⟨chs, rfl, rfl, fun j => ?_⟩
    have : ¬ (m - 0 ≤ j ∧ j < m) := by omega
    rw [if_neg this]
  | succ n ih =>
    intro m chs hn hm
    obtain ⟨m1, rfl⟩ : ∃ m1, m = m1 + 1 := ⟨m - 1, by omega⟩
    have hlt : m1 < chs.length := by omega
    have hi : ((m1 + 1 : Nat) : Int) - 1 = (m1 : Int) := by omega
    obtain ⟨out, hout, hlen, hget⟩ := ih m1 (chs.set m1 (chs[m1]).Stop) (by omega) (by simp; omega)
    refine ⟨out, ?_, by simpa using hlen, fun j => ?_⟩
    · rw [stopLoop, hi]
      have hneg : ¬ ((m1 : Int) < 0) := by omega
      simp only [hneg, if_false, Int.toNat_ofNat, List.getElem?_eq_getElem hlt]
      exact hout
    · rw [hget j, List.getElem?_set]
      by_cases hj : m1 = j
      · subst hj
        have h1 : ¬ (m1 - n ≤ m1 ∧ m1 < m1) := by omega
        have h2 : m1 + 1 - (n + 1) ≤ m1 ∧ m1 < m1 + 1 := by omega
        rw [if_neg h1, if_pos h2, if_pos rfl, if_pos hlt, List.getElem?_eq_getElem hlt]
        rfl
      · by_cases hc : m1 - n ≤ j ∧ j < m1
        · have h2 : m1 + 1 - (n + 1) ≤ j ∧ j < m1 + 1 := by omega
          rw [if_pos hc, if_pos h2, if_neg hj]
        · have h2 : ¬ (m1 + 1 - (n + 1) ≤ j ∧ j < m1 + 1) := by omega
          rw [if_neg hc, if_neg h2, if_neg hj]

theorem SetSize_eq (s : SoundChannels) (n : Nat) :
    s.SetSize (n : Int) =
      some (⟨s.channels.take n ++ List.replicate (n - s.channels.length) default⟩,
        (s.channels.drop n).map SoundChannel.Stop) := by
  unfold SetSize count
  by_cases h1 : (n : Int) > (s.channels.length : Int)
  · have h1n : s.channels.length ≤ n := by omega
    have h2 : ((n : Int) - (s.channels.length : Int)).toNat = n - s.channels.length := by omega
    rw [if_pos h1, h2, List.take_of_length_le h1n, List.drop_of_length_le h1n]
    rfl
  · rw [if_neg h1]
    by_cases h3 : (n : Int) < (s.channels.length : Int)
    · rw [if_pos h3]
      have h4 : ((s.channels.length : Int) - (n : Int)).toNat = s.channels.length - n := by omega
      obtain ⟨out, hout, hlen, hget⟩ :=
        stopLoop_spec (s.channels.length - n) s.channels.length s.channels (by omega) (le_refl _)
      have hneg : ¬ ((n : Int) < 0) := by omega
      rw [h4, hout]
      simp only [hneg, if_false, Int.toNat_ofNat]
      have h5 : n - s.channels.length = 0 := by omega
      rw [h5, List.replicate_zero, List.append_nil]
      have htake : out.take n = s.channels.take n := by
        apply List.ext_getElem?
        intro j
        rw [List.getElem?_take, List.getElem?_take]
        by_cases hj : j < n
        · have hc : ¬ (s.channels.length - (s.channels.length - n) ≤ j ∧
              j < s.channels.length) := by
            omega
          rw [if_pos hj, if_pos hj, hget j, if_neg hc]
        · rw [if_neg hj, if_neg hj]
      have hdrop : out.drop n = (s.channels.drop n).map SoundChannel.Stop := by
        apply List.ext_getElem?
        intro j
        rw [List.getElem?_drop, List.getElem?_map, List.getElem?_drop, hget (n + j)]
        by_cases hj : n + j < s.channels.length
        · have hc : s.channels.length - (s.channels.length - n) ≤ n + j ∧
              n + j < s.channels.length := by
            omega
          rw [if_pos hc]
        · have hc : ¬ (s.channels.length - (s.channels.length - n) ≤ n + j ∧
              n + j < s.channels.length) := by
            omega
          rw [if_neg hc, List.getElem?_eq_none (by omega)]
          rfl
      rw [htake, hdrop]
    · rw [if_neg h3]
      have h5 : n - s.channels.length = 0 := by omega
      have h6 : s.channels.length ≤ n := by omega
      rw [h5, List.replicate_zero, List.append_nil, List.take_of_length_le h6,
        List.drop_of_length_le h6]
      rfl

theorem SetSize_pool_eq (s : SoundChannels) (n : Nat) :
    (s.SetSize (n : Int)).map Prod.fst =
      some ⟨s.channels.take n ++ List.replicate (n - s.channels.length) default⟩ := by
  rw [SetSize_eq]
  rfl

theorem SetSize_neg (s : SoundChannels) (size : Int) (h : size < 0) : s.SetSize size = none := by
  unfold SetSize count
  have h1 : ¬ (size > (s.channels.length : Int)) := by omega
  have h2 : size < (s.channels.length : Int) := by omega
  rw [if_neg h1, if_pos h2]
  cases stopLoop ((s.channels.length : Int) - size).toNat ((s.channels.length : Int) - 1) s.channels with
  | none => rfl
  | some chs => simp [h]

theorem SetSize_length (s s1 : SoundChannels) (size : Int)
    (h : (s.SetSize size).map Prod.fst = some s1) :
    0 ≤ size ∧ s1.channels.length = size.toNat := by
  by_cases hneg : size < 0
  · rw [SetSize_neg s size hneg] at h
    cases h
  · obtain ⟨n, rfl⟩ : ∃ n : Nat, size = (n : Int) := ⟨size.toNat, by omega⟩
    rw [SetSize_pool_eq] at h
    cases h
    refine ⟨by omega, ?_⟩
    simp only [List.length_append, List.length_take, List.length_replicate, Int.toNat_ofNat]
    omega

theorem Stop_detached (c : SoundChannel) :
    c.Stop.sound = none ∧ ∀ k, c.Stop.ctrl = some k → k.Streamer = none := by
  refine ⟨rfl, fun k hk => ?_⟩
  cases hc : c.ctrl with
  | none => simp [SoundChannel.Stop, hc] at hk
  | some c0 =>
    simp only [SoundChannel.Stop, hc, Option.some.injEq] at hk
    rw [← hk]

/-- C6: for a pool of old size `m` and every `n ≥ 0`, `SetSize(n)` returns (it does not
panic) the pool `s1` of exactly `n` slots and the slots `dropped` it cut off; every slot
`i < min m n` of `s1` is the old slot `i`; when `n > m` the slots `m..n-1` are empty free
slots; the slots cut off are the `m - n` old slots `n..m-1`, and the call leaves each of
them force-stopped: it is the old slot after `Stop`, its asset is cleared, it is not
playing and the source of its `ctrl` is detached. In particular a pool of five playing
voices shrunk to 2 keeps voices 0 and 1 as they were, playing, and leaves voices 2, 3 and 4
stopped. -/
theorem SetSize_frame (s : SoundChannels) (n : Nat) :
    ∃ s1 dropped, s.SetSize (n : Int) = some (s1, dropped) ∧ s1.channels.length = n ∧
      (∀ i, i < min s.channels.length n → s1.channels[i]? = s.channels[i]?) ∧
      (∀ i, s.channels.length ≤ i → i < n →
        s1.channels[i]? = some ⟨none, none, none, none⟩ ∧ playingAt s1.channels i = false) ∧
      dropped.length = s.channels.length - n ∧
      (∀ i, n ≤ i → i < s.channels.length →
        ∃ c, s.channels[i]? = some c ∧ dropped[i - n]? = some c.Stop ∧
          c.Stop.sound = none ∧ c.Stop.IsPlaying = false ∧
          ∀ k, c.Stop.ctrl = some k → k.Streamer = none) ∧
      (∀ d ∈ dropped, d.sound = none ∧ d.IsPlaying = false ∧
        ∀ k, d.ctrl = some k → k.Streamer = none) ∧
      (s.channels.length = 5 ∧ (∀ c ∈ s.channels, c.IsPlaying = true) ∧ n = 2 →
        s1.channels = s.channels.take 2 ∧ (∀ c ∈ s1.channels, c.IsPlaying = true) ∧
        dropped.length = 3 ∧ ∀ d ∈ dropped, d.IsPlaying = false) := by
  have hdropped : ∀ d ∈ (s.channels.drop n).map SoundChannel.Stop,
      d.sound = none ∧ d.IsPlaying = false ∧ ∀ k, d.ctrl = some k → k.Streamer = none := by
    intro d hd
    obtain ⟨c, _, rfl⟩ := List.mem_map.mp hd
    exact ⟨rfl, rfl, (Stop_detached c).2⟩
  refine ⟨_, _, SetSize_eq s n, ?_, ?_, ?_, ?_, ?_, hdropped, ?_⟩
  · simp only [List.length_append, List.length_take, List.length_replicate]
    omega
  · intro i hi
    have h1 : i < (s.channels.take n).length := by
      simp only [List.length_take]; omega
    rw [List.getElem?_append_left h1, List.getElem?_take, if_pos (by omega)]
  · intro i hm hn
    have h1 : (s.channels.take n).length = s.channels.length := by
      simp only [List.length_take]; omega
    have h2 : (s.channels.take n ++ List.replicate (n - s.channels.length) default)[i]?
        = some (default : SoundChannel) := by
      rw [List.getElem?_append_right (by omega), h1, List.getElem?_replicate, if_pos (by omega)]
    refine ⟨h2, ?_⟩
    unfold playingAt
    rw [h2]
    rfl
  · simp only [List.length_map, List.length_drop]
  · intro i hn hi
    refine ⟨s.channels[i], List.getElem?_eq_getElem hi, ?_, rfl, rfl, (Stop_detached _).2⟩
    have hni : n + (i - n) = i := by omega
    rw [List.getElem?_map, List.getElem?_drop, hni, List.getElem?_eq_getElem hi]
    rfl
  · rintro ⟨h5, hall, rfl⟩
    have h0 : 2 - s.channels.length = 0 := by omega
    rw [h0, List.replicate_zero, List.append_nil]
    refine ⟨rfl, fun c hc => hall c (List.mem_of_mem_take hc), ?_, fun d hd => (hdropped d hd).2.1⟩
    simp only [List.length_map, List.length_drop]
    omega

theorem reserveFrom_spec (l : List SoundChannel) : ∀ (i : Nat),
    (∀ k, reserveFrom i l = some k ↔
      ∃ j, k = i + j ∧ (∃ c, l[j]? = some c ∧ c.IsPlaying = false) ∧
        ∀ j1, j1 < j → playingAt l j1 = true) ∧
    (reserveFrom i l = none ↔ ∀ c ∈ l, c.IsPlaying = true) := by
  induction l with
  | nil =>
    intro i
    refine ⟨fun k => ?_, ?_⟩
    · simp [reserveFrom]
    · simp [reserveFrom]
  | cons c cs ih =>
    intro i
    obtain ⟨ih1, ih2⟩ := ih (i + 1)
    by_cases hp : c.IsPlaying = true
    · have hr : reserveFrom i (c :: cs) = reserveFrom (i + 1) cs := by
        simp [reserveFrom, hp]
      refine ⟨fun k => ?_, ?_⟩
      · rw [hr, ih1 k]
        constructor
        · rintro ⟨j, rfl, ⟨c1, hc1, hc1p⟩, hall⟩
          refine ⟨j + 1, by omega, ⟨c1, by simpa using hc1, hc1p⟩, fun j1 hj1 => ?_⟩
          cases j1 with
          | zero => simpa [playingAt] using hp
          | succ j2 =>
            have := hall j2 (by omega)
            simpa [playingAt] using this
        · rintro ⟨j, rfl, ⟨c1, hc1, hc1p⟩, hall⟩
          cases j with
          | zero =>
            simp only [List.getElem?_cons_zero, Option.some.injEq] at hc1
            subst hc1
            rw [hp] at hc1p
            cases hc1p
          | succ j2 =>
            refine ⟨j2, by omega, ⟨c1, by simpa using hc1, hc1p⟩, fun j1 hj1 => ?_⟩
            have := hall (j1 + 1) (by omega)
            simpa [playingAt] using this
      · rw [hr, ih2]
        simp [hp]
    · have hp2 : c.IsPlaying = false := by simpa using hp
      have hr : reserveFrom i (c :: cs) = some i := by
        simp [reserveFrom, hp2]
      refine ⟨fun k => ?_, ?_⟩
      · rw [hr]
        constructor
        · intro hk
          cases hk
          exact ⟨0, rfl, ⟨c, by simp, hp2⟩, fun j1 hj1 => absurd hj1 (Nat.not_lt_zero _)⟩
        · rintro ⟨j, rfl, ⟨c1, hc1, hc1p⟩, hall⟩
          cases j with
          | zero => rfl
          | succ j2 =>
            have := hall 0 (by omega)
            simp [playingAt, hp2] at this
      · rw [hr]
        simp [hp2]

/-- C4: `reserveChannel` returns slot `k` exactly when `k` is the smallest index of a slot
that is not playing; it returns nil exactly when every slot is playing (so also on the
empty pool); and the call leaves the pool as it is. -/
theorem reserveChannel_lowest (s : SoundChannels) :
    (∀ k, s.reserveChannel = some k ↔
      (∃ c, s.channels[k]? = some c ∧ c.IsPlaying = false) ∧
        ∀ j, j < k → playingAt s.channels j = true) ∧
    (s.reserveChannel = none ↔ ∀ c ∈ s.channels, c.IsPlaying = true) ∧
    reserveChannel ⟨[]⟩ = none ∧
    PoolOp.apply s PoolOp.reserveChannel = some s := by
  obtain ⟨h1, h2⟩ := reserveFrom_spec s.channels 0
  refine ⟨fun k => ?_, h2, rfl, rfl⟩
  unfold reserveChannel
  rw [h1 k]
  constructor
  · rintro ⟨j, hj, hc, hall⟩
    have : k = j := by omega
    subst this
    exact ⟨hc, hall⟩
  · rintro ⟨hc, hall⟩
    exact ⟨k, by omega, hc, hall⟩

theorem Min_eq (ch : Int) : Min 255 ch = min ch 255 := by
  unfold Min
  split_ifs with h
  · exact (min_eq_right h).symm
  · exact (min_eq_left (by omega)).symm

/-- C5: for an explicit index `ch ≥ 0` whose slot `min(ch, 255)` exists and is playing,
`New(ch, lowpriority = true)` returns nil and the pool afterwards is the pool before: same
size, same slots, so the busy slot keeps its asset and its `ctrl` is not touched. -/
theorem New_lowpriority_busy (s : SoundChannels) (ch : Int) (c : SoundChannel)
    (hch : 0 ≤ ch) (hslot : s.channels[(min ch 255).toNat]? = some c)
    (hplay : c.IsPlaying = true) :
    s.New ch true = some (s, none) := by
  have hlt : (min ch 255).toNat < s.channels.length := by
    by_contra hcon
    rw [List.getElem?_eq_none (by omega)] at hslot
    cases hslot
  have h0 : (0 : Int) ≤ min ch 255 := le_min hch (by norm_num)
  have hcount : s.count > min ch 255 := by
    unfold count
    omega
  unfold New
  simp only [Min_eq, ge_iff_le, h0, if_true, hslot, hplay, Bool.true_and, Bool.and_true,
    decide_eq_true_eq, hcount]

theorem New_lowpriority_busy_witness :
    (⟨[SoundChannel.Play default (some (newSound 8000)) false 1]⟩ : SoundChannels).New 0 true
      = some (⟨[SoundChannel.Play default (some (newSound 8000)) false 1]⟩, none) :=
  New_lowpriority_busy ⟨[SoundChannel.Play default (some (newSound 8000)) false 1]⟩ 0
    (SoundChannel.Play default (some (newSound 8000)) false 1) (by decide) (by decide) (by decide)

theorem scanDown_spec (chs : List SoundChannel) (n : Nat) : n ≤ chs.length →
    ∃ r, scanDown chs n = some r ∧
      (∀ k, r = some k ↔ k < n ∧ playingAt chs k = false ∧
        ∀ j, k < j → j < n → playingAt chs j = true) ∧
      (r = none ↔ ∀ i, i < n → playingAt chs i = true) := by
  induction n with
  | zero =>
    intro _
    refine ⟨none, rfl, fun k => ?_, ?_⟩
    · simp
    · simp
  | succ n ih =>
    intro hn
    have hlt : n < chs.length := by omega
    obtain ⟨r, hr, hsome, hnone⟩ := ih (by omega)
    have hget : chs[n]? = some chs[n] := List.getElem?_eq_getElem hlt
    have hpa : playingAt chs n = (chs[n]).IsPlaying := by
      unfold playingAt
      rw [hget]
    by_cases hp : (chs[n]).IsPlaying = true
    · refine ⟨r, ?_, fun k => ?_, ?_⟩
      · rw [scanDown, hget]
        simp only [hp, Bool.not_true]
        exact hr
      · rw [hsome k]
        constructor
        · rintro ⟨hk, hfree, hall⟩
          refine ⟨by omega, hfree, fun j hj1 hj2 => ?_⟩
          by_cases hjn : j = n
          · subst hjn
            rw [hpa, hp]
          · exact hall j hj1 (by omega)
        · rintro ⟨hk, hfree, hall⟩
          have hkn : k ≠ n := by
            rintro rfl
            rw [hpa, hp] at hfree
            cases hfree
          exact ⟨by omega, hfree, fun j hj1 hj2 => hall j hj1 (by omega)⟩
      · rw [hnone]
        constructor
        · intro hall i hi
          by_cases hin : i = n
          · subst hin
            rw [hpa, hp]
          · exact hall i (by omega)
        · intro hall i hi
          exact hall i (by omega)
    · have hp2 : (chs[n]).IsPlaying = false := by simpa using hp
      refine ⟨some n, ?_, fun k => ?_, ?_⟩
      · rw [scanDown, hget]
        simp only [hp2, Bool.not_false, if_true]
      · constructor
        · intro hk
          cases hk
          exact ⟨by omega, by rw [hpa, hp2], fun j hj1 hj2 => by omega⟩
        · rintro ⟨hk, hfree, hall⟩
          by_cases hkn : k = n
          · rw [hkn]
          · have := hall n (by omega) (by omega)
            rw [hpa, hp2] at this
            cases this
      · constructor
        · intro h
          cases h
        · intro hall
          have := hall n (by omega)
          rw [hpa, hp2] at this
          cases this

/-- C3: on a pool of at most 256 slots, `New` with a negative index (auto-assign) returns
(it does not panic); the pool afterwards is the old slots, unchanged, followed by empty
free slots up to exactly 256 (so no voice is stopped); the slot returned is the largest
index in `0..255` that is not playing, and nil is returned exactly when all 256 slots are
playing. -/
theorem New_auto_highest (s : SoundChannels) (ch : Int) (lowpriority : Bool)
    (hlen : s.channels.length ≤ 256) (hch : ch < 0) :
    ∃ s1 r, s.New ch lowpriority = some (s1, r) ∧
      s1.channels =
        s.channels ++ List.replicate (256 - s.channels.length) ⟨none, none, none, none⟩ ∧
      s1.channels.length = 256 ∧
      (∀ i, i < s.channels.length → s1.channels[i]? = s.channels[i]?) ∧
      (∀ i, s.channels.length ≤ i → i < 256 → playingAt s1.channels i = false) ∧
      (∀ k, r = some k ↔ k < 256 ∧ playingAt s1.channels k = false ∧
        ∀ j, k < j → j < 256 → playingAt s1.channels j = true) ∧
      (r = none ↔ ∀ i, i < 256 → playingAt s1.channels i = true) := by
  have hmin : Min 255 ch = ch := by
    unfold Min
    rw [if_neg (by omega)]
  have hset : (if s.count < 256 then (s.SetSize 256).map Prod.fst else some s) =
      some ⟨s.channels ++ List.replicate (256 - s.channels.length) default⟩ := by
    by_cases hc : s.count < 256
    · rw [if_pos hc]
      have := SetSize_pool_eq s 256
      rw [List.take_of_length_le hlen] at this
      exact this
    · rw [if_neg hc]
      unfold count at hc
      have h0 : 256 - s.channels.length = 0 := by omega
      rw [h0, List.replicate_zero, List.append_nil]
  have hlen1 : (s.channels ++ List.replicate (256 - s.channels.length)
      (default : SoundChannel)).length = 256 := by
    simp only [List.length_append, List.length_replicate]
    omega
  obtain ⟨r, hr, hsome, hnone⟩ := scanDown_spec
    (s.channels ++ List.replicate (256 - s.channels.length) default) 256 (by omega)
  refine ⟨_, r, ?_, rfl, hlen1, ?_, ?_, hsome, hnone⟩
  · unfold New
    simp only [hmin, ge_iff_le, not_le.mpr hch, if_false, hset, hr]
    rfl
  · intro i hi
    exact List.getElem?_append_left hi
  · intro i h1 h2
    unfold playingAt
    rw [List.getElem?_append_right h1, List.getElem?_replicate, if_pos (by omega)]
    rfl

theorem New_auto_highest_witness :
    ∃ s1 r, (⟨[SoundChannel.Play default (some (newSound 8000)) false 1]⟩ : SoundChannels).New
        (-1) false = some (s1, r) ∧ s1.channels.length = 256 ∧ r = some 255 := by
  obtain ⟨s1, r, h, _, hl, _, hfree, hsome, _⟩ :=
    New_auto_highest ⟨[SoundChannel.Play default (some (newSound 8000)) false 1]⟩ (-1) false
      (by decide) (by decide)
  refine ⟨s1, r, h, hl, (hsome 255).mpr ⟨by omega, hfree 255 (by simp) (by omega), ?_⟩⟩
  intro j h1 h2
  omega

theorem tickAll_length (l : List SoundChannel) :
    ∀ l1, tickAll l = some l1 → l1.length = l.length := by
  induction l with
  | nil =>
    intro l1 h
    simp only [tickAll, Option.some.injEq] at h
    rw [← h]
  | cons c cs ih =>
    intro l1 h
    rw [tickAll] at h
    cases hc : tickChannel c with
    | none => rw [hc] at h; cases h
    | some c1 =>
      cases hcs : tickAll cs with
      | none => rw [hc, hcs] at h; cases h
      | some cs1 =>
        rw [hc, hcs] at h
        simp only [Option.some.injEq] at h
        rw [← h, List.length_cons, List.length_cons, ih cs1 hcs]

theorem New_length_le (s s1 : SoundChannels) (ch : Int) (lowpriority : Bool) (r : Option Nat)
    (h : s.New ch lowpriority = some (s1, r)) (hlen : s.channels.length ≤ 256) :
    s1.channels.length ≤ 256 := by
  have hmin : Min 255 ch ≤ 255 := by
    rw [Min_eq]
    exact min_le_right _ _
  unfold New at h
  simp only at h
  split at h
  · split at h
    · simp only [Option.some.injEq, Prod.mk.injEq] at h
      rw [← h.1]
      exact hlen
    · split at h
      · cases h
      · rename_i s2 hs2
        have hl2 : s2.channels.length ≤ 256 := by
          split at hs2
          · have := (SetSize_length s s2 _ hs2).2
            omega
          · simp only [Option.some.injEq] at hs2
            rw [← hs2]
            exact hlen
        split at h
        · cases h
        · simp only [Option.some.injEq, Prod.mk.injEq] at h
          rw [← h.1]
          simpa using hl2
  · split at h
    · cases h
    · rename_i s2 hs2
      have hl2 : s2.channels.length ≤ 256 := by
        split at hs2
        · have := (SetSize_length s s2 _ hs2).2
          omega
        · simp only [Option.some.injEq] at hs2
          rw [← hs2]
          exact hlen
      split at h
      · cases h
      · simp only [Option.some.injEq, Prod.mk.injEq] at h
        rw [← h.1]
        exact hl2

end SoundChannels

theorem apply_length_le (s s1 : SoundChannels) (op : PoolOp) (hop : op.SizeOK)
    (h : op.apply s = some s1) (hlen : s.channels.length ≤ 256) :
    s1.channels.length ≤ 256 := by
  cases op with
  | SetSize size =>
    have := SoundChannels.SetSize_length s s1 size h
    have hs : size ≤ 256 := hop
    omega
  | New ch lowpriority =>
    simp only [PoolOp.apply] at h
    cases hn : s.New ch lowpriority with
    | none => rw [hn] at h; cases h
    | some pr =>
      obtain ⟨s2, r⟩ := pr
      rw [hn] at h
      simp only [Option.some.injEq] at h
      rw [← h]
      exact SoundChannels.New_length_le s s2 ch lowpriority r hn hlen
  | reserveChannel =>
    simp only [PoolOp.apply, Option.some.injEq] at h
    rw [← h]
    exact hlen
  | Play slot sound loop freqmul =>
    simp only [PoolOp.apply] at h
    cases hc : s.channels[slot]? with
    | none => rw [hc] at h; cases h
    | some c =>
      rw [hc] at h
      simp only [Option.some.injEq] at h
      rw [← h]
      simpa using hlen
  | Stop slot =>
    simp only [PoolOp.apply] at h
    cases hc : s.channels[slot]? with
    | none => rw [hc] at h; cases h
    | some c =>
      rw [hc] at h
      simp only [Option.some.injEq] at h
      rw [← h]
      simpa using hlen
  | Tick =>
    simp only [PoolOp.apply, SoundChannels.Tick] at h
    cases ht : SoundChannels.tickAll s.channels with
    | none => rw [ht] at h; cases h
    | some l1 =>
      rw [ht] at h
      simp only [Option.some.injEq] at h
      rw [← h]
      rw [SoundChannels.tickAll_length _ _ ht]
      exact hlen

theorem runOps_length_le (ops : List PoolOp) : ∀ (s s1 : SoundChannels),
    (∀ op ∈ ops, op.SizeOK) → runOps s ops = some s1 → s.channels.length ≤ 256 →
    s1.channels.length ≤ 256 := by
  induction ops with
  | nil =>
    intro s s1 _ h hlen
    simp only [runOps, Option.some.injEq] at h
    rw [← h]
    exact hlen
  | cons op ops ih =>
    intro s s1 hops h hlen
    rw [runOps] at h
    cases ha : op.apply s with
    | none => rw [ha] at h; cases h
    | some s2 =>
      rw [ha] at h
      exact ih s2 s1 (fun o ho => hops o (List.mem_cons_of_mem _ ho)) h
        (apply_length_le s s2 op (hops op (List.mem_cons_self _ _)) ha hlen)

/-- C2, as the code has it: `SetSize` and `newSoundChannels` put no cap on the size, only
`New` clamps its index to 255. In every pool state reached from `newSoundChannels(size)`
through `SetSize`, `New`, `reserveChannel`, `Play`, `Stop` and `Tick` calls in which every
size argument (of `newSoundChannels` and of `SetSize`) is at most 256, the pool holds at
most 256 slots and at most 256 voices report `IsPlaying`. -/
theorem pool_bound (size : Int) (ops : List PoolOp) (s0 s : SoundChannels)
    (hsize : size ≤ 256) (hops : ∀ op ∈ ops, op.SizeOK)
    (h0 : SoundChannels.newSoundChannels size = some s0) (hrun : runOps s0 ops = some s) :
    s.channels.length ≤ 256 ∧ s.playingCount ≤ 256 := by
  have hl0 : s0.channels.length ≤ 256 := by
    have := SoundChannels.SetSize_length ⟨[]⟩ s0 size h0
    omega
  have hl : s.channels.length ≤ 256 := runOps_length_le ops s0 s hops hrun hl0
  exact ⟨hl, le_trans (List.length_filter_le _ _) hl⟩

set_option maxRecDepth 100000 in
theorem pool_bound_witness :
    (3 : Nat) ≤ 256 ∧
    SoundChannels.playingCount
      ⟨[SoundChannel.Play default (some ⟨⟨8000, 2, 4⟩, [(1, -1)]⟩) false 1, default,
        SoundChannel.Stop (SoundChannel.Play default (some (newSound 8000)) true 2)]⟩ ≤ 256 :=
  pool_bound 2
    [.Play 0 (some ⟨⟨8000, 2, 4⟩, [(1, -1)]⟩) false 1, .New (-1) false, .SetSize 3, .Tick,
      .Play 2 (some (newSound 8000)) true 2, .Stop 2, .reserveChannel]
    ⟨[default, default]⟩
    ⟨[SoundChannel.Play default (some ⟨⟨8000, 2, 4⟩, [(1, -1)]⟩) false 1, default,
      SoundChannel.Stop (SoundChannel.Play default (some (newSound 8000)) true 2)]⟩
    (by decide)
    (by
      intro op hop
      simp only [List.mem_cons, List.mem_singleton, List.not_mem_nil, or_false] at hop
      rcases hop with rfl | rfl | rfl | rfl | rfl | rfl | rfl <;> simp [PoolOp.SizeOK])
    (by decide) (by decide)

set_option maxRecDepth 100000 in
/-- C2 fails as stated: `newSoundChannels(257)` gives a pool of 257 slots, and after a
`Play` on each slot 257 voices report `IsPlaying` at the same time. -/
theorem pool_bound_counterexample :
    SoundChannels.newSoundChannels 257 = some ⟨List.replicate 257 default⟩ ∧
    runOps ⟨List.replicate 257 default⟩
        ((List.range 257).map fun i => PoolOp.Play i (some (newSound 8000)) false 1)
      = some ⟨List.replicate 257 (SoundChannel.Play default (some (newSound 8000)) false 1)⟩ ∧
    SoundChannels.playingCount
      ⟨List.replicate 257 (SoundChannel.Play default (some (newSound 8000)) false 1)⟩ = 257 := by
  refine ⟨by decide, by decide, by decide⟩

/-! ## The normalizer -/

section NormalizerTheorems

variable {α : Type} [LinearOrderedField α]

theorem abs_copysign_one (y : α) : |copysign (1 : α) y| = 1 := by
  unfold copysign
  split_ifs <;> simp

theorem process_abs_le_one (pow : α → α → α) (n : NormalizerLR α) (bai sam : α) :
    |(n.process pow bai sam).2.2| ≤ 1 := by
  unfold NormalizerLR.process
  simp only
  split_ifs with h
  · exact le_of_eq (abs_copysign_one _)
  · exact not_lt.mp h

theorem streamLoop_length (sys : Sys) (pow : α → α → α) (frames : List (α × α)) :
    ∀ n : Normalizer α, (Normalizer.streamLoop sys pow n frames).2.length = frames.length := by
  induction frames with
  | nil => intro n; rfl
  | cons fr rest ih =>
    intro n
    obtain ⟨sl, sr⟩ := fr
    simp only [Normalizer.streamLoop, List.length_cons, ih]

theorem streamLoop_bounded (sys : Sys) (pow : α → α → α) (frames : List (α × α)) :
    ∀ n : Normalizer α, ∀ fr ∈ (Normalizer.streamLoop sys pow n frames).2,
      |fr.1| ≤ 1 ∧ |fr.2| ≤ 1 := by
  induction frames with
  | nil =>
    intro n fr hfr
    simp [Normalizer.streamLoop] at hfr
  | cons f rest ih =>
    intro n fr hfr
    obtain ⟨sl, sr⟩ := f
    simp only [Normalizer.streamLoop, List.mem_cons] at hfr
    rcases hfr with rfl | hfr
    · exact ⟨process_abs_le_one pow _ _ _, process_abs_le_one pow _ _ _⟩
    · exact ih _ fr hfr

/-- C10: over any linear ordered field of samples (in particular the real numbers) and
for any power function, the sample that `NormalizerLR.process` writes back has magnitude
at most 1, whatever the channel state, the gain and the input sample; and when the wrapped
source reports `s` frames within the buffer, `Normalizer.Stream` returns and each of the
`s` frames it emits has both components in `[-1, 1]`. -/
theorem normalizer_output_bounded (sys : Sys) (pow : α → α → α) (st : NormalizerLR α)
    (bai sam : α) (inner : List (α × α) → List (α × α) × Nat × Bool) (n : Normalizer α)
    (samples : List (α × α)) (hs : (inner samples).2.1 ≤ (inner samples).1.length) :
    |(st.process pow bai sam).2.2| ≤ 1 ∧
    ∃ n1 out, Normalizer.Stream sys pow inner n samples
        = some (n1, out, (inner samples).2.1, (inner samples).2.2) ∧
      out.length = (inner samples).1.length ∧
      ∀ fr ∈ out.take (inner samples).2.1,
        (-1 ≤ fr.1 ∧ fr.1 ≤ 1) ∧ (-1 ≤ fr.2 ∧ fr.2 ≤ 1) := by
  refine ⟨process_abs_le_one pow st bai sam, ?_⟩
  have hlen : (Normalizer.streamLoop sys pow n
      ((inner samples).1.take (inner samples).2.1)).2.length = (inner samples).2.1 := by
    rw [streamLoop_length, List.length_take]
    omega
  refine ⟨(Normalizer.streamLoop sys pow n ((inner samples).1.take (inner samples).2.1)).1,
    (Normalizer.streamLoop sys pow n ((inner samples).1.take (inner samples).2.1)).2
      ++ (inner samples).1.drop (inner samples).2.1, ?_, ?_, ?_⟩
  · unfold Normalizer.Stream
    simp only [gt_iff_lt, not_lt.mpr hs, if_false]
  · simp only [List.length_append, hlen, List.length_drop]
    omega
  · intro fr hfr
    rw [List.take_append_of_le_length (le_of_eq hlen.symm), List.take_of_length_le
      (le_of_eq hlen)] at hfr
    obtain ⟨h1, h2⟩ := streamLoop_bounded sys pow _ n fr hfr
    exact ⟨abs_le.mp h1, abs_le.mp h2⟩

end NormalizerTheorems

theorem normalizer_output_bounded_witness :
    |((NewNormalizer : Normalizer ℝ).l.process (fun x y => x ^ y) 400 (1 / 2)).2.2| ≤ 1 ∧
    ∃ n1 out, Normalizer.Stream ⟨true, 80, 80⟩ (fun x y : ℝ => x ^ y)
        (fun b => (b.map (fun _ => (1 / 2, -1 / 2)), 2, true)) NewNormalizer
        [(0, 0), (0, 0), (0, 0)] = some (n1, out, 2, true) ∧
      out.length = 3 ∧
      ∀ fr ∈ out.take 2, (-1 ≤ fr.1 ∧ fr.1 ≤ 1) ∧ (-1 ≤ fr.2 ∧ fr.2 ≤ 1) :=
  normalizer_output_bounded ⟨true, 80, 80⟩ (fun x y : ℝ => x ^ y) (NewNormalizer : Normalizer ℝ).l
    400 (1 / 2) (fun b => (b.map (fun _ => (1 / 2, -1 / 2)), 2, true)) NewNormalizer
    [(0, 0), (0, 0), (0, 0)] (by simp)

/-! ## The sound bank: reading the fields -/

theorem take_split {β : Type} (l x y : List β) (a b : Nat) (h : l.take (a + b) = x ++ y)
    (hx : x.length = a) : l.take a = x ∧ (l.drop a).take b = y := by
  rw [List.take_add] at h
  have hlen : (l.take a).length = x.length := by
    have h1 := congrArg List.length h
    simp only [List.length_append, List.length_take, List.length_drop] at h1
    simp only [List.length_take]
    omega
  exact List.append_inj h hlen

theorem toNat_ofNat8 (n : Nat) : (UInt8.ofNat n).toNat = n % 256 := by
  show (BitVec.ofNat 8 n).toNat = n % 256
  simp

theorem putLE_length (n : Nat) : ∀ v, (putLE n v).length = n := by
  induction n with
  | zero => intro v; rfl
  | succ n ih => intro v; simp only [putLE, List.length_cons, ih]

theorem leNat_putLE (n : Nat) : ∀ v, leNat (putLE n v) = v % 256 ^ n := by
  induction n with
  | zero =>
    intro v
    simp [putLE, leNat, Nat.mod_one]
  | succ n ih =>
    intro v
    rw [putLE, leNat, ih, toNat_ofNat8, pow_succ', Nat.mod_mul, Nat.mod_mod]

theorem leNat_putLE_of_lt (n v : Nat) (h : v < 256 ^ n) : leNat (putLE n v) = v := by
  rw [leNat_putLE, Nat.mod_eq_of_lt h]

theorem putI32_length (v : Int) : (putI32 v).length = 4 := putLE_length 4 _

theorem toInt32_putI32 (v : Int) (h1 : -(2 ^ 31 : Int) ≤ v) (h2 : v < 2 ^ 31) :
    toInt32 (leNat (putI32 v)) = v := by
  unfold putI32
  rw [leNat_putLE_of_lt 4 _ (by norm_num at *; omega)]
  unfold toInt32
  norm_num at *
  split_ifs <;> omega

theorem ReadFull_of_slice (data : List UInt8) (ofs n : Nat) (bs : List UInt8)
    (h : (data.drop ofs).take n = bs) (hl : bs.length = n) :
    File.ReadFull ⟨data, ofs⟩ n = (.ok bs, ⟨data, ofs + n⟩) := by
  have hle : n ≤ (data.drop ofs).length := by
    have h1 := congrArg List.length h
    simp only [List.length_take] at h1
    omega
  unfold File.ReadFull
  simp only [hle, if_true, h]

theorem readU16_of_slice (data : List UInt8) (ofs v : Nat)
    (h : (data.drop ofs).take 2 = putLE 2 v) (hv : v < 2 ^ 16) :
    readU16 ⟨data, ofs⟩ = (.ok v, ⟨data, ofs + 2⟩) := by
  unfold readU16
  rw [ReadFull_of_slice data ofs 2 _ h (putLE_length 2 v)]
  simp only [leNat_putLE_of_lt 2 v (by norm_num; omega)]

theorem readU32_of_slice (data : List UInt8) (ofs v : Nat)
    (h : (data.drop ofs).take 4 = putLE 4 v) (hv : v < 2 ^ 32) :
    readU32 ⟨data, ofs⟩ = (.ok v, ⟨data, ofs + 4⟩) := by
  unfold readU32
  rw [ReadFull_of_slice data ofs 4 _ h (putLE_length 4 v)]
  simp only [leNat_putLE_of_lt 4 v (by norm_num; omega)]

theorem readNum_of_slice (data : List UInt8) (ofs : Nat) (g i : Int)
    (h : (data.drop ofs).take 8 = putI32 g ++ putI32 i)
    (hg : -(2 ^ 31 : Int) ≤ g ∧ g < 2 ^ 31) (hi : -(2 ^ 31 : Int) ≤ i ∧ i < 2 ^ 31) :
    readNum ⟨data, ofs⟩ = (.ok (g, i), ⟨data, ofs + 8⟩) := by
  unfold readNum
  rw [ReadFull_of_slice data ofs 8 _ h (by simp [putI32_length])]
  simp only [List.take_left' (putI32_length g), List.drop_left' (putI32_length g),
    toInt32_putI32 g hg.1 hg.2, toInt32_putI32 i hi.1 hi.2]

/-- The three reads of a sub-header at the offset of a chained entry. -/
theorem subHeader_reads (data : List UInt8) (e : SndEntry) (hr : e.InRange)
    (h : (data.drop e.offset).take 16 = e.subHeader) :
    readU32 ⟨data, e.offset⟩ = (.ok e.next, ⟨data, e.offset + 4⟩) ∧
    readU32 ⟨data, e.offset + 4⟩ = (.ok e.length, ⟨data, e.offset + 4 + 4⟩) ∧
    readNum ⟨data, e.offset + 4 + 4⟩ = (.ok e.key, ⟨data, e.offset + 16⟩) := by
  obtain ⟨_, hn, hl, hg, hi⟩ := hr
  unfold SndEntry.subHeader at h
  rw [List.append_assoc, List.append_assoc] at h
  obtain ⟨h1, h2⟩ := take_split (data.drop e.offset) _ _ 4 12 h (putLE_length 4 _)
  rw [List.drop_drop] at h2
  obtain ⟨h3, h4⟩ := take_split (data.drop (e.offset + 4)) _ _ 4 8 h2 (putLE_length 4 _)
  rw [List.drop_drop] at h4
  exact ⟨readU32_of_slice data e.offset e.next h1 hn,
    readU32_of_slice data (e.offset + 4) e.length h3 hl,
    readNum_of_slice data (e.offset + 4 + 4) e.group e.item h4 hg hi⟩

/-- On a chain of entries the loop of `LoadSndFiltered` does what `scanEntries` does on the
entries it visits. -/
theorem loadLoop_chained (wavDecode : Decoder) (keepItem : Int × Int → Bool) (max : Nat)
    (data : List UInt8) (loops : Nat) :
    ∀ (es : List SndEntry) (ofs pos : Nat) (closed : Bool) (table : Table),
      Chained data ofs es → loops ≤ es.length →
      loadLoop wavDecode keepItem max ⟨data, pos⟩ loops closed table ofs
        = scanEntries wavDecode data keepItem max (es.take loops) closed table := by
  induction loops with
  | zero =>
    intro es ofs pos closed table _ _
    rfl
  | succ loops ih =>
    intro es ofs pos closed table hch hle
    cases es with
    | nil => simp at hle
    | cons e rest =>
      obtain ⟨hofs, hr, hsl, hrest⟩ := hch
      subst hofs
      obtain ⟨r1, r2, r3⟩ := subHeader_reads data e hr hsl
      have hle1 : loops ≤ rest.length := by simpa using hle
      have ihr := fun (pos1 : Nat) (c : Bool) (t : Table) =>
        ih rest e.next pos1 c t hrest hle1
      rw [loadLoop]
      cases closed with
      | true => simp only [if_true, List.take_succ_cons, scanEntries]
      | false =>
        simp only [Bool.false_eq_true, if_false, File.Seek, r1, r2, r3, List.take_succ_cons,
          scanEntries, SndEntry.payload, ihr]

/-- On a well-formed file `LoadSndFiltered` gets through the header and what it returns is
decided by the scan of the entries it visits: it panics in the deferred close when the scan
leaves the file closed, and returns the result of the scan otherwise. -/
theorem LoadSndFiltered_wellFormed (fs : String → Option (List UInt8)) (wavDecode : Decoder)
    (filename : String) (keepItem : Int × Int → Bool) (max : Nat)
    (data : List UInt8) (ver ver2 first : Nat) (es : List SndEntry)
    (hfs : fs filename = some data) (hwf : WellFormed data ver ver2 first es) :
    LoadSndFiltered fs wavDecode filename keepItem max =
      match scanEntries wavDecode data keepItem max
          (es.take (if max > 0 ∧ max < es.length then max else es.length)) false [] with
      | (.error e, closed) => if closed then none else some (.error e)
      | (.ok table, closed) => if closed then none else some (.ok ⟨table, ver, ver2⟩) := by
  have h := hwf.header
  rw [List.append_assoc, List.append_assoc, List.append_assoc] at h
  obtain ⟨h1, h2⟩ := take_split data _ _ 12 12 h rfl
  obtain ⟨h3, h4⟩ := take_split (data.drop 12) _ _ 2 10 h2 (putLE_length 2 _)
  rw [List.drop_drop] at h4
  obtain ⟨h5, h6⟩ := take_split (data.drop (12 + 2)) _ _ 2 8 h4 (putLE_length 2 _)
  rw [List.drop_drop] at h6
  obtain ⟨h7, h8⟩ := take_split (data.drop (12 + 2 + 2)) _ _ 4 4 h6 (putLE_length 4 _)
  rw [List.drop_drop] at h8
  have hne : data.isEmpty = false := by
    cases hd : data with
    | nil => rw [hd] at h1; cases h1
    | cons b bs => rfl
  have hread : File.Read ⟨data, 0⟩ 12 = (.ok sndMagic, ⟨data, 12⟩) := by
    unfold File.Read
    simp only [List.drop_zero, hne, Bool.false_eq_true, if_false, h1]
    rfl
  have hloops : (if max > 0 ∧ max < es.length then max else es.length) ≤ es.length := by
    split_ifs with hc
    · exact le_of_lt hc.2
    · exact le_refl _
  have hbody : loadBody wavDecode keepItem max ⟨data, 0⟩ =
      match scanEntries wavDecode data keepItem max
          (es.take (if max > 0 ∧ max < es.length then max else es.length)) false [] with
      | (.error e, closed) => (.error e, closed)
      | (.ok table, closed) => (.ok ⟨table, ver, ver2⟩, closed) := by
    unfold loadBody
    simp only [hread, ne_eq, not_true_eq_false, if_false,
      readU16_of_slice data 12 ver h3 hwf.ver_lt,
      readU16_of_slice data (12 + 2) ver2 h5 hwf.ver2_lt,
      readU32_of_slice data (12 + 2 + 2) es.length h7 hwf.count_lt,
      readU32_of_slice data (12 + 2 + 2 + 4) first h8 hwf.first_lt,
      loadLoop_chained wavDecode keepItem max data _ es first _ false [] hwf.chain hloops]
  unfold LoadSndFiltered osOpen
  simp only [hfs, hbody]
  generalize scanEntries wavDecode data keepItem max
    (es.take (if max > 0 ∧ max < es.length then max else es.length)) false [] = r
  obtain ⟨r, c⟩ := r
  cases r <;> cases c <;> rfl

theorem exampleBank_wellFormed :
    WellFormed exampleBank 4 0 24 [exampleEntry1, exampleEntry2] :=
  ⟨by decide, by decide, by decide, by decide, by decide, by decide⟩

/-! ## The sound bank: the claims -/

/-- C9: for every non-empty file whose first 12 bytes (or all its bytes, when it has fewer)
are not the magic literal, `LoadSndFiltered` returns the invalid-header error, whatever the
decoder, the predicate and the bound are and whatever follows the first 12 bytes: nothing of
the entries takes part in the result. -/
theorem LoadSndFiltered_bad_magic (fs : String → Option (List UInt8)) (wavDecode : Decoder)
    (filename : String) (keepItem : Int × Int → Bool) (max : Nat) (data : List UInt8)
    (hfs : fs filename = some data) (hne : data ≠ []) (hmagic : data.take 12 ≠ sndMagic) :
    LoadSndFiltered fs wavDecode filename keepItem max = some (.error .invalidHeader) := by
  have hemp : data.isEmpty = false := by
    cases data with
    | nil => exact absurd rfl hne
    | cons b bs => rfl
  have hbody : loadBody wavDecode keepItem max ⟨data, 0⟩ = (.error .invalidHeader, false) := by
    unfold loadBody File.Read
    simp only [List.drop_zero, hemp, Bool.false_eq_true, if_false, ne_eq, hmagic,
      not_false_eq_true, if_true]
  unfold LoadSndFiltered osOpen
  simp only [hfs, hbody]
  rfl

theorem LoadSndFiltered_bad_magic_witness :
    LoadSndFiltered (fun _ => some [69, 108, 101, 99]) exampleDecode "short.snd"
      (fun _ => true) 0 = some (.error .invalidHeader) :=
  LoadSndFiltered_bad_magic (fun _ => some [69, 108, 101, 99]) exampleDecode "short.snd"
    (fun _ => true) 0 [69, 108, 101, 99] rfl (by decide) (by decide)

theorem scanEntries_none_kept (wavDecode : Decoder) (data : List UInt8)
    (keepItem : Int × Int → Bool) (max : Nat) (es : List SndEntry) (table : Table)
    (h : ∀ e ∈ es, keepItem e.key = false) :
    scanEntries wavDecode data keepItem max es false table = (.ok table, false) := by
  induction es with
  | nil => rfl
  | cons e rest ih =>
    rw [scanEntries, h e (List.mem_cons_self _ _)]
    simp only [Bool.false_eq_true, if_false]
    exact ih (fun e1 he1 => h e1 (List.mem_cons_of_mem _ he1))

/-- C8: on a well-formed bank file none of whose entries has the key `(g, s)`,
`loadFromSnd(file, g, s, max)` returns no error, for every bound `max`, and yields the
placeholder asset: an empty stereo buffer (no frame, two channels) at sample rate 11025. -/
theorem loadFromSnd_absent (fs : String → Option (List UInt8)) (wavDecode : Decoder)
    (filename : String) (g s : Int) (max : Nat)
    (data : List UInt8) (ver ver2 first : Nat) (es : List SndEntry)
    (hfs : fs filename = some data) (hwf : WellFormed data ver ver2 first es)
    (habs : ∀ e ∈ es, e.key ≠ (g, s)) :
    loadFromSnd fs wavDecode filename g s max = some (.ok (newSound 11025)) ∧
    newSound 11025 = ⟨⟨11025, 2, 4⟩, []⟩ ∧ (newSound 11025).Len = 0 := by
  refine ⟨?_, rfl, rfl⟩
  have hnone : ∀ e ∈ es.take (if max > 0 ∧ max < es.length then max else es.length),
      (fun gn : Int × Int => decide (gn.1 = g ∧ gn.2 = s)) e.key = false := by
    intro e he
    have hk := habs e (List.mem_of_mem_take he)
    simp only [decide_eq_false_iff_not]
    intro hc
    exact hk (Prod.ext hc.1 hc.2)
  unfold loadFromSnd
  rw [LoadSndFiltered_wellFormed fs wavDecode filename _ max data ver ver2 first es hfs hwf,
    scanEntries_none_kept wavDecode data _ max _ [] hnone]
  rfl

theorem loadFromSnd_absent_witness :
    loadFromSnd (fun _ => some exampleBank) exampleDecode "bank.snd" 7 7 1
      = some (.ok (newSound 11025)) ∧
    newSound 11025 = ⟨⟨11025, 2, 4⟩, []⟩ ∧ (newSound 11025).Len = 0 :=
  loadFromSnd_absent (fun _ => some exampleBank) exampleDecode "bank.snd" 7 7 1 exampleBank
    4 0 24 [exampleEntry1, exampleEntry2] rfl exampleBank_wellFormed (by decide)

theorem Table.get_eq_none_iff (t : Table) (k : Int × Int) :
    t.get k = none ↔ k ∉ t.map Prod.fst := by
  induction t with
  | nil => simp [Table.get]
  | cons p rest ih =>
    obtain ⟨k1, v⟩ := p
    by_cases hk : k1 = k
    · simp [Table.get, hk]
    · have hk2 : ¬ k = k1 := fun h => hk h.symm
      simp [Table.get, hk, hk2, ih]

theorem Table.set_of_get_none (t : Table) (k : Int × Int) (v : Sound) (h : t.get k = none) :
    t.set k v = (k, v) :: t := by
  unfold Table.set
  congr 1
  rw [List.filter_eq_self]
  intro p hp
  have hk := (Table.get_eq_none_iff t k).mp h
  simp only [ne_eq, decide_eq_true_eq]
  intro hpk
  exact hk (List.mem_map.mpr ⟨p, hp, hpk⟩)

theorem Table.get_cons (t : Table) (k k1 : Int × Int) (v : Sound) :
    Table.get ((k, v) :: t) k1 = if k = k1 then some v else t.get k1 := rfl

/-- C1, as the code has it: the bound `max` also limits how many entries are looked at.
On a well-formed bank file of two entries with distinct keys, the second of which decodes,
and with a predicate true only for the second entry's key, `LoadSndFiltered` returns
without error: with `max = 1` only the first entry is looked at and the map of the bank is
empty; with any other bound (`max = 0` or `max ≥ 2`) the map holds exactly one key, the
second entry's key, mapped to the second entry's decoded asset. -/
theorem LoadSndFiltered_second (fs : String → Option (List UInt8)) (wavDecode : Decoder)
    (filename : String) (keepItem : Int × Int → Bool) (max : Nat)
    (data : List UInt8) (ver ver2 first : Nat) (e1 e2 : SndEntry) (snd2 : Sound)
    (hfs : fs filename = some data) (hwf : WellFormed data ver ver2 first [e1, e2])
    (hkeys : e1.key ≠ e2.key) (hdec : readSound wavDecode (e2.payload data) = .ok snd2)
    (hkeep : ∀ k, keepItem k = true ↔ k = e2.key) :
    (max = 1 →
      LoadSndFiltered fs wavDecode filename keepItem max = some (.ok ⟨[], ver, ver2⟩)) ∧
    (max ≠ 1 → LoadSndFiltered fs wavDecode filename keepItem max
      = some (.ok ⟨[(e2.key, snd2)], ver, ver2⟩)) := by
  have hk1 : keepItem e1.key = false := by
    cases hc : keepItem e1.key with
    | false => rfl
    | true => exact absurd ((hkeep e1.key).mp hc) hkeys
  have hk2 : keepItem e2.key = true := (hkeep e2.key).mpr rfl
  rw [LoadSndFiltered_wellFormed fs wavDecode filename keepItem max data ver ver2 first
    [e1, e2] hfs hwf]
  constructor
  · rintro rfl
    simp [scanEntries, hk1]
  · intro hne
    have hcond : ¬ (max > 0 ∧ max < [e1, e2].length) := by
      simp only [List.length_cons, List.length_nil]
      omega
    rw [if_neg hcond]
    by_cases h0 : max > 0
    · simp [scanEntries, hk1, hk2, Table.get, hdec, h0, Table.set]
    · simp [scanEntries, hk1, hk2, Table.get, hdec, h0, Table.set]

theorem LoadSndFiltered_second_witness :
    (LoadSndFiltered (fun _ => some exampleBank) exampleDecode "bank.snd"
        (fun k => decide (k = exampleEntry2.key)) 1 = some (.ok ⟨[], 4, 0⟩)) ∧
    (LoadSndFiltered (fun _ => some exampleBank) exampleDecode "bank.snd"
        (fun k => decide (k = exampleEntry2.key)) 2
      = some (.ok ⟨[((3, 5), ⟨⟨11000, 2, 4⟩, [(1, -1)]⟩)], 4, 0⟩)) :=
  ⟨(LoadSndFiltered_second (fun _ => some exampleBank) exampleDecode "bank.snd"
      (fun k => decide (k = exampleEntry2.key)) 1 exampleBank 4 0 24 exampleEntry1
      exampleEntry2 ⟨⟨11000, 2, 4⟩, [(1, -1)]⟩ rfl exampleBank_wellFormed (by decide) rfl
      (fun k => by simp)).1 rfl,
   (LoadSndFiltered_second (fun _ => some exampleBank) exampleDecode "bank.snd"
      (fun k => decide (k = exampleEntry2.key)) 2 exampleBank 4 0 24 exampleEntry1
      exampleEntry2 ⟨⟨11000, 2, 4⟩, [(1, -1)]⟩ rfl exampleBank_wellFormed (by decide) rfl
      (fun k => by simp)).2 (by decide)⟩

/-- C1 fails as stated: on the two-entry bank file `exampleBank` (well formed, distinct
keys, both payloads decodable), with `max = 1` and a predicate true only for the second
entry's key, `LoadSndFiltered` returns a bank whose map is empty: the second entry is never
reached, since the loop runs `min(numberOfSounds, max) = 1` time. -/
theorem LoadSndFiltered_second_counterexample :
    WellFormed exampleBank 4 0 24 [exampleEntry1, exampleEntry2] ∧
    exampleEntry1.key ≠ exampleEntry2.key ∧
    readSound exampleDecode (exampleEntry1.payload exampleBank)
      = .ok ⟨⟨8000, 2, 4⟩, [(1, -1)]⟩ ∧
    readSound exampleDecode (exampleEntry2.payload exampleBank)
      = .ok ⟨⟨11000, 2, 4⟩, [(1, -1)]⟩ ∧
    LoadSndFiltered (fun _ => some exampleBank) exampleDecode "bank.snd"
      (fun k => decide (k = exampleEntry2.key)) 1 = some (.ok ⟨[], 4, 0⟩) :=
  ⟨exampleBank_wellFormed, by decide, rfl, rfl, rfl⟩

/-- The unbounded scan (`max = 0`) over entries that are all kept, all decodable and have
pairwise distinct keys not yet in the table: every entry is added under its own key. -/
theorem scanEntries_all (wavDecode : Decoder) (data : List UInt8)
    (keepItem : Int × Int → Bool) (es : List SndEntry) :
    ∀ t : Table, (es.map SndEntry.key).Nodup → (∀ e ∈ es, keepItem e.key = true) →
      (∀ e ∈ es, t.get e.key = none) →
      (∀ e ∈ es, ∃ s, readSound wavDecode (e.payload data) = .ok s) →
      ∃ t1, scanEntries wavDecode data keepItem 0 es false t = (.ok t1, false) ∧
        t1.map Prod.fst = (es.map SndEntry.key).reverse ++ t.map Prod.fst ∧
        (∀ e ∈ es, ∀ s, readSound wavDecode (e.payload data) = .ok s → t1.get e.key = some s) ∧
        (∀ k, k ∉ es.map SndEntry.key → t1.get k = t.get k) := by
  induction es with
  | nil =>
    intro t _ _ _ _
    exact ⟨t, rfl, by simp, by simp, fun k _ => rfl⟩
  | cons e rest ih =>
    intro t hnd hkeep hfresh hdec
    rw [List.map_cons, List.nodup_cons] at hnd
    obtain ⟨hnotin, hndrest⟩ := hnd
    obtain ⟨s0, hs0⟩ := hdec e (List.mem_cons_self _ _)
    have hget : t.get e.key = none := hfresh e (List.mem_cons_self _ _)
    have hset : t.set e.key s0 = (e.key, s0) :: t := Table.set_of_get_none t e.key s0 hget
    have hfresh1 : ∀ e1 ∈ rest, Table.get ((e.key, s0) :: t) e1.key = none := by
      intro e1 he1
      have hne : ¬ e.key = e1.key := fun hc => hnotin (List.mem_map.mpr ⟨e1, he1, hc.symm⟩)
      rw [Table.get_cons, if_neg hne]
      exact hfresh e1 (List.mem_cons_of_mem _ he1)
    obtain ⟨t1, ht1, hkeys, hvals, hother⟩ := ih ((e.key, s0) :: t) hndrest
      (fun e1 he1 => hkeep e1 (List.mem_cons_of_mem _ he1)) hfresh1
      (fun e1 he1 => hdec e1 (List.mem_cons_of_mem _ he1))
    refine ⟨t1, ?_, ?_, ?_, ?_⟩
    · rw [scanEntries, hkeep e (List.mem_cons_self _ _)]
      simp only [Bool.false_eq_true, if_true, hget, hs0, gt_iff_lt, lt_self_iff_false,
        if_false, hset]
      exact ht1
    · rw [hkeys]
      simp
    · intro e1 he1 s1 hs1
      rcases List.mem_cons.mp he1 with rfl | hin
      · rw [hother e1.key hnotin, Table.get_cons, if_pos rfl]
        rw [hs0] at hs1
        cases hs1
        rfl
      · exact hvals e1 hin s1 hs1
    · intro k hk
      rw [List.map_cons, List.mem_cons, not_or] at hk
      rw [hother k hk.2, Table.get_cons, if_neg (fun hc => hk.1 hc.symm)]

/-- C7: round trip of the container format. For every well-formed bank file (magic,
version pair, number of sounds `n`, offset of the first sub-header, `n` chained entries)
whose entries have pairwise distinct keys with group and item non-negative and decodable
payloads, `LoadSnd` returns a bank without error; its version fields are the written ones;
its keys are exactly the `n` written keys, each once; and each key is mapped to the asset
decoded from the payload of its own entry. -/
theorem LoadSnd_roundtrip (fs : String → Option (List UInt8)) (wavDecode : Decoder)
    (filename : String) (data : List UInt8) (ver ver2 first : Nat) (es : List SndEntry)
    (hfs : fs filename = some data) (hwf : WellFormed data ver ver2 first es)
    (hnodup : (es.map SndEntry.key).Nodup)
    (hnonneg : ∀ e ∈ es, 0 ≤ e.group ∧ 0 ≤ e.item)
    (hdec : ∀ e ∈ es, ∃ s, readSound wavDecode (e.payload data) = .ok s) :
    ∃ snd, LoadSnd fs wavDecode filename = some (.ok snd) ∧ snd.ver = ver ∧ snd.ver2 = ver2 ∧
      (∀ k, k ∈ snd.table.map Prod.fst ↔ k ∈ es.map SndEntry.key) ∧
      (snd.table.map Prod.fst).Nodup ∧ snd.table.length = es.length ∧
      (∀ e ∈ es, ∀ s, readSound wavDecode (e.payload data) = .ok s → snd.Get e.key = some s) ∧
      (∀ k, k ∉ es.map SndEntry.key → snd.Get k = none) := by
  have hkeep : ∀ e ∈ es,
      (fun gn : Int × Int => decide (gn.1 ≥ 0 ∧ gn.2 ≥ 0)) e.key = true := by
    intro e he
    simpa [SndEntry.key] using hnonneg e he
  obtain ⟨t1, ht1, hkeys, hvals, hother⟩ := scanEntries_all wavDecode data
    (fun gn : Int × Int => decide (gn.1 ≥ 0 ∧ gn.2 ≥ 0)) es [] hnodup hkeep
    (fun _ _ => rfl) hdec
  have hcond : ¬ ((0 : Nat) > 0 ∧ 0 < es.length) := by omega
  refine ⟨⟨t1, ver, ver2⟩, ?_, rfl, rfl, ?_, ?_, ?_, hvals, ?_⟩
  · unfold LoadSnd
    rw [LoadSndFiltered_wellFormed fs wavDecode filename _ 0 data ver ver2 first es hfs hwf,
      if_neg hcond, List.take_length, ht1]
    rfl
  · intro k
    simp only [hkeys, List.map_nil, List.append_nil, List.mem_reverse]
  · simp only [hkeys, List.map_nil, List.append_nil, List.nodup_reverse]
    exact hnodup
  · have := congrArg List.length hkeys
    simpa using this
  · intro k hk
    show t1.get k = none
    rw [hother k hk]
    rfl

theorem LoadSnd_roundtrip_witness :
    ∃ snd, LoadSnd (fun _ => some exampleBank) exampleDecode "bank.snd" = some (.ok snd) ∧
      snd.ver = 4 ∧ snd.ver2 = 0 ∧
      (∀ k, k ∈ snd.table.map Prod.fst ↔ k ∈ [((1 : Int), (0 : Int)), (3, 5)]) ∧
      snd.table.length = 2 ∧
      snd.Get (1, 0) = some ⟨⟨8000, 2, 4⟩, [(1, -1)]⟩ ∧
      snd.Get (3, 5) = some ⟨⟨11000, 2, 4⟩, [(1, -1)]⟩ := by
  obtain ⟨snd, h, hv, hv2, hk, _, hl, hval, _⟩ :=
    LoadSnd_roundtrip (fun _ => some exampleBank) exampleDecode "bank.snd" exampleBank 4 0 24
      [exampleEntry1, exampleEntry2] rfl exampleBank_wellFormed (by decide) (by decide)
      (by
        intro e he
        simp only [List.mem_cons, List.mem_singleton, List.not_mem_nil, or_false] at he
        rcases he with rfl | rfl
        · exact ⟨_, rfl⟩
        · exact ⟨_, rfl⟩)
  exact ⟨snd, h, hv, hv2, hk, hl, hval exampleEntry1 (by simp) _ rfl,
    hval exampleEntry2 (by simp) _ rfl⟩

/-! ## The pool: Tick and explicit allocation -/

namespace SoundChannels

theorem tickChannel_spec (c : SoundChannel)
    (h : c.IsPlaying = true → c.streamer.isSome = true) :
    ∃ c1, tickChannel c = some c1 ∧
      (c1.IsPlaying = true ↔ c.IsPlaying = true ∧
        ∃ st snd, c.streamer = some st ∧ c.sound = some snd ∧ st.Position < snd.Len) ∧
      (c1 = c ∨ (c.IsPlaying = true ∧ c1.IsPlaying = false ∧ c1 = { c with sound := none })) := by
  obtain ⟨streamer, sfx, ctrl, sound⟩ := c
  cases sound with
  | none =>
    refine ⟨_, rfl, ?_, Or.inl rfl⟩
    simp [SoundChannel.IsPlaying]
  | some snd =>
    cases streamer with
    | none => simp [SoundChannel.IsPlaying] at h
    | some st =>
      by_cases hpos : st.Position ≥ snd.Len
      · refine ⟨⟨some st, sfx, ctrl, none⟩, ?_, ?_, Or.inr ⟨rfl, rfl, rfl⟩⟩
        · simp [tickChannel, SoundChannel.IsPlaying, hpos]
        · simp only [SoundChannel.IsPlaying, Option.isSome_none, Bool.false_eq_true,
            Option.isSome_some, Option.some.injEq, true_and, false_iff, not_exists, not_and]
          intro st1 snd1 h1 h2
          subst h1
          subst h2
          exact not_lt.mpr hpos
      · refine ⟨⟨some st, sfx, ctrl, some snd⟩, ?_, ?_, Or.inl rfl⟩
        · simp [tickChannel, SoundChannel.IsPlaying, hpos]
        · simp only [SoundChannel.IsPlaying, Option.isSome_some, Option.some.injEq, true_and,
            true_iff]
          exact ⟨st, snd, rfl, rfl, not_le.mp hpos⟩

theorem tickAll_spec (l : List SoundChannel) :
    (∀ c ∈ l, c.IsPlaying = true → c.streamer.isSome = true) →
    ∃ l1, tickAll l = some l1 ∧ l1.length = l.length ∧
      ∀ (i : Nat) (c : SoundChannel), l[i]? = some c →
        ∃ c1, l1[i]? = some c1 ∧ tickChannel c = some c1 := by
  induction l with
  | nil =>
    intro _
    exact ⟨[], rfl, rfl, fun i c hc => by simp at hc⟩
  | cons c cs ih =>
    intro h
    obtain ⟨c1, hc1, _⟩ := tickChannel_spec c (h c (List.mem_cons_self _ _))
    obtain ⟨cs1, hcs1, hlen, hget⟩ := ih (fun d hd => h d (List.mem_cons_of_mem _ hd))
    refine ⟨c1 :: cs1, ?_, ?_, ?_⟩
    · rw [tickAll, hc1, hcs1]
    · rw [List.length_cons, List.length_cons, hlen]
    · intro i d hd
      cases i with
      | zero =>
        simp only [List.getElem?_cons_zero, Option.some.injEq] at hd
        subst hd
        exact ⟨c1, by simp, hc1⟩
      | succ j =>
        simp only [List.getElem?_cons_succ] at hd
        obtain ⟨d1, hd1, hd2⟩ := hget j d hd
        exact ⟨d1, by simpa using hd1, hd2⟩

/-- C17: on a pool in which each playing slot has a cursor, `Tick` returns (no nil
dereference) and keeps the size of the pool; slot by slot, the slot is playing afterwards
exactly when it was playing before and its cursor is strictly below the frame count of its
asset; and each slot is either left as it was or was playing and is freed by clearing its
asset alone, so `Tick` binds no asset. -/
theorem Tick_frees_finished (s : SoundChannels)
    (hcur : ∀ c ∈ s.channels, c.IsPlaying = true → c.streamer.isSome = true) :
    ∃ s1, s.Tick = some s1 ∧ s1.channels.length = s.channels.length ∧
      ∀ (i : Nat) (c : SoundChannel), s.channels[i]? = some c →
        ∃ c1, s1.channels[i]? = some c1 ∧
        (c1.IsPlaying = true ↔ c.IsPlaying = true ∧
          ∃ st snd, c.streamer = some st ∧ c.sound = some snd ∧ st.Position < snd.Len) ∧
        (c1 = c ∨
          (c.IsPlaying = true ∧ c1.IsPlaying = false ∧ c1 = { c with sound := none })) := by
  obtain ⟨l1, hl1, hlen, hget⟩ := tickAll_spec s.channels hcur
  refine ⟨⟨l1⟩, ?_, hlen, ?_⟩
  · rw [Tick, hl1]
  · intro i c hc
    obtain ⟨c1, hc1, ht⟩ := hget i c hc
    obtain ⟨c2, hc2, hiff, hfr⟩ := tickChannel_spec c (hcur c (List.getElem?_mem hc))
    rw [ht] at hc2
    cases hc2
    exact ⟨c1, hc1, hiff, hfr⟩

set_option maxRecDepth 100000 in
theorem Tick_frees_finished_witness :
    ∃ s1, Tick ⟨[SoundChannel.Play default (some ⟨⟨8000, 2, 4⟩, [(1, -1)]⟩) false 1,
        SoundChannel.Play default (some (newSound 8000)) false 1, default]⟩ = some s1 ∧
      playingAt s1.channels 0 = true ∧ playingAt s1.channels 1 = false := by
  obtain ⟨s1, h, _, hslot⟩ := Tick_frees_finished
    ⟨[SoundChannel.Play default (some ⟨⟨8000, 2, 4⟩, [(1, -1)]⟩) false 1,
      SoundChannel.Play default (some (newSound 8000)) false 1, default]⟩ (by decide)
  refine ⟨s1, h, ?_, ?_⟩
  · obtain ⟨c1, hc1, hiff, _⟩ := hslot 0 _ rfl
    unfold playingAt
    rw [hc1]
    exact hiff.mpr ⟨rfl, _, _, rfl, rfl, by decide⟩
  · obtain ⟨c1, hc1, hiff, _⟩ := hslot 1 _ rfl
    unfold playingAt
    rw [hc1]
    show c1.IsPlaying = false
    cases hp : c1.IsPlaying with
    | false => rfl
    | true =>
      obtain ⟨_, st, snd, h1, h2, h3⟩ := hiff.mp hp
      cases h1
      cases h2
      exact absurd h3 (by decide)

theorem Stop_default : SoundChannel.Stop default = (default : SoundChannel) := rfl

/-- C18: for a pool of size `m` and an explicit index `ch ≥ 0` that the low-priority rule
does not reject (the rule rejects when `lowpriority` is set and slot `k = min(ch, 255)`
exists and is playing), `New(ch, lowpriority)` returns slot `k`; the pool afterwards has
`max(m, k+1)` slots; slot `k` is the old slot `k` stopped (so it is not playing, even if it
was); every other old slot is unchanged; and every added slot is an empty free slot. -/
theorem New_explicit (s : SoundChannels) (ch : Int) (lowpriority : Bool) (hch : 0 ≤ ch)
    (hnot : ¬ (lowpriority = true ∧ playingAt s.channels (min ch 255).toNat = true)) :
    ∃ s1, s.New ch lowpriority = some (s1, some (min ch 255).toNat) ∧
      s1.channels.length = max s.channels.length ((min ch 255).toNat + 1) ∧
      playingAt s1.channels (min ch 255).toNat = false ∧
      (∀ c, s.channels[(min ch 255).toNat]? = some c →
        s1.channels[(min ch 255).toNat]? = some c.Stop) ∧
      (∀ i, i < s.channels.length → i ≠ (min ch 255).toNat →
        s1.channels[i]? = s.channels[i]?) ∧
      (∀ i, s.channels.length ≤ i → i < s1.channels.length →
        s1.channels[i]? = some ⟨none, none, none, none⟩ ∧ playingAt s1.channels i = false) := by
  have h0 : (0 : Int) ≤ min ch 255 := le_min hch (by norm_num)
  obtain ⟨k, hk⟩ : ∃ k : Nat, min ch 255 = (k : Int) := ⟨(min ch 255).toNat, by omega⟩
  rw [hk] at hnot ⊢
  simp only [Int.toNat_ofNat] at hnot ⊢
  -- the pool after the optional `SetSize(ch+1)`
  have hset : (if s.count < (k : Int) + 1 then (s.SetSize ((k : Int) + 1)).map Prod.fst
      else some s) =
      some ⟨s.channels ++ List.replicate (k + 1 - s.channels.length) default⟩ := by
    by_cases hc : s.count < (k : Int) + 1
    · rw [if_pos hc]
      unfold count at hc
      have := SetSize_pool_eq s (k + 1)
      rw [List.take_of_length_le (by omega)] at this
      exact_mod_cast this
    · rw [if_neg hc]
      unfold count at hc
      have hz : k + 1 - s.channels.length = 0 := by omega
      rw [hz, List.replicate_zero, List.append_nil]
  have hlen1 : (s.channels ++ List.replicate (k + 1 - s.channels.length)
      (default : SoundChannel)).length = max s.channels.length (k + 1) := by
    simp only [List.length_append, List.length_replicate]
    omega
  have hklt : k < (s.channels ++ List.replicate (k + 1 - s.channels.length)
      (default : SoundChannel)).length := by
    rw [hlen1]
    omega
  have hguard : (lowpriority && decide (s.count > (k : Int)) &&
      (match s.channels[k]? with
        | some c => c.IsPlaying
        | none => false)) = false := by
    cases hl : lowpriority with
    | false => rfl
    | true =>
      have hp : playingAt s.channels k = false := by
        cases hpp : playingAt s.channels k with
        | false => rfl
        | true => exact absurd ⟨hl, hpp⟩ hnot
      unfold playingAt at hp
      simp only [hp, Bool.and_false]
  refine ⟨⟨(s.channels ++ List.replicate (k + 1 - s.channels.length) default).set k
    ((s.channels ++ List.replicate (k + 1 - s.channels.length) default)[k]).Stop⟩,
    ?_, ?_, ?_, ?_, ?_, ?_⟩
  · unfold New
    simp only [Min_eq, hk, ge_iff_le, Int.natCast_nonneg, if_true, hguard, Bool.false_eq_true,
      if_false, hset, Int.toNat_ofNat, List.getElem?_eq_getElem hklt]
  · simp only [List.length_set, hlen1]
  · unfold playingAt
    rw [List.getElem?_set, if_pos rfl, if_pos hklt]
    rfl
  · intro c hc
    have hks : k < s.channels.length := by
      by_contra hcon
      rw [List.getElem?_eq_none (by omega)] at hc
      cases hc
    rw [List.getElem?_set, if_pos rfl, if_pos hklt]
    have : (s.channels ++ List.replicate (k + 1 - s.channels.length) default)[k] = c := by
      rw [List.getElem_append_left hks]
      rw [List.getElem?_eq_getElem hks] at hc
      exact Option.some.inj hc
    rw [this]
  · intro i hi hne
    rw [List.getElem?_set, if_neg (fun h => hne h.symm), List.getElem?_append_left hi]
  · intro i h1 h2
    simp only [List.length_set, hlen1] at h2
    have hgeti : (s.channels ++ List.replicate (k + 1 - s.channels.length)
        (default : SoundChannel))[i]? = some default := by
      rw [List.getElem?_append_right h1, List.getElem?_replicate, if_pos (by omega)]
    have hres : ((s.channels ++ List.replicate (k + 1 - s.channels.length) default).set k
        ((s.channels ++ List.replicate (k + 1 - s.channels.length) default)[k]).Stop)[i]?
        = some (default : SoundChannel) := by
      rw [List.getElem?_set]
      by_cases hik : k = i
      · subst hik
        rw [if_pos rfl, if_pos hklt]
        have hd : (s.channels ++ List.replicate (k + 1 - s.channels.length)
            (default : SoundChannel))[k] = default := by
          have := List.getElem?_eq_getElem hklt
          rw [hgeti] at this
          exact (Option.some.inj this).symm
        rw [hd, Stop_default]
      · rw [if_neg hik, hgeti]
    refine ⟨hres, ?_⟩
    unfold playingAt
    rw [hres]
    rfl

theorem New_explicit_witness :
    ∃ s1, (⟨[SoundChannel.Play default (some (newSound 8000)) false 1]⟩ : SoundChannels).New
        300 false = some (s1, some 255) ∧ s1.channels.length = 256 ∧
      playingAt s1.channels 255 = false := by
  obtain ⟨s1, h, hl, hp, _⟩ :=
    New_explicit ⟨[SoundChannel.Play default (some (newSound 8000)) false 1]⟩ 300 false
      (by decide) (by decide)
  exact ⟨s1, h, hl, hp⟩

end SoundChannels

/-! ## The pool: what `Play` builds stays in place -/

theorem Sane_default : (default : SoundChannel).Sane := by
  intro h
  rcases h with h | h <;> cases h

theorem Sane_Play (c : SoundChannel) (sound : Option Sound) (loop : Bool) (freqmul : F32)
    (h : c.Sane) : (c.Play sound loop freqmul).Sane := by
  cases sound with
  | none => exact h
  | some snd => exact fun _ => ⟨rfl, rfl, rfl⟩

theorem Sane_Stop (c : SoundChannel) (h : c.Sane) : c.Stop.Sane := by
  obtain ⟨streamer, sfx, ctrl, sound⟩ := c
  cases ctrl with
  | none =>
    intro h1
    rcases h1 with h1 | h1 <;> cases h1
  | some k =>
    intro _
    obtain ⟨h1, h2, _⟩ := h (Or.inr rfl)
    exact ⟨h1, h2, rfl⟩

theorem SetVolume_Sane (c : SoundChannel) (vol : F32) (h : c.Sane) :
    ∃ c1, c.SetVolume vol = some c1 ∧ c1.Sane ∧ c1.sound = c.sound := by
  obtain ⟨streamer, sfx, ctrl, sound⟩ := c
  cases ctrl with
  | none => exact ⟨_, rfl, h, rfl⟩
  | some k =>
    obtain ⟨h1, h2, h3⟩ := h (Or.inr rfl)
    cases sfx with
    | none => cases h2
    | some e => exact ⟨_, rfl, fun _ => ⟨h1, rfl, rfl⟩, rfl⟩

theorem SetPan_Sane (c : SoundChannel) (p ls : F32) (x : Option Nat) (h : c.Sane) :
    ∃ c1, c.SetPan p ls x = some c1 ∧ c1.Sane ∧ c1.sound = c.sound := by
  obtain ⟨streamer, sfx, ctrl, sound⟩ := c
  cases ctrl with
  | none => exact ⟨_, rfl, h, rfl⟩
  | some k =>
    obtain ⟨h1, h2, h3⟩ := h (Or.inr rfl)
    cases sfx with
    | none => cases h2
    | some e => exact ⟨_, rfl, fun _ => ⟨h1, rfl, rfl⟩, rfl⟩

theorem Sane_streamer (c : SoundChannel) (h : c.Sane) :
    c.IsPlaying = true → c.streamer.isSome = true :=
  fun hp => (h (Or.inl hp)).1

theorem tickChannel_Sane (c : SoundChannel) (h : c.Sane) :
    ∃ c1, SoundChannels.tickChannel c = some c1 ∧ c1.Sane := by
  obtain ⟨c1, hc1, _, hfr⟩ := SoundChannels.tickChannel_spec c (Sane_streamer c h)
  refine ⟨c1, hc1, ?_⟩
  rcases hfr with rfl | ⟨_, _, rfl⟩
  · exact h
  · intro h1
    rcases h1 with h1 | h1
    · cases h1
    · exact h (Or.inr h1)

theorem tickAll_Sane (l : List SoundChannel) (h : ∀ c ∈ l, c.Sane) :
    ∃ l1, SoundChannels.tickAll l = some l1 ∧ ∀ c ∈ l1, c.Sane := by
  induction l with
  | nil => exact ⟨[], rfl, fun c hc => by cases hc⟩
  | cons c cs ih =>
    obtain ⟨c1, hc1, hs1⟩ := tickChannel_Sane c (h c (List.mem_cons_self _ _))
    obtain ⟨cs1, hcs1, hsane⟩ := ih (fun d hd => h d (List.mem_cons_of_mem _ hd))
    refine ⟨c1 :: cs1, ?_, ?_⟩
    · rw [SoundChannels.tickAll, hc1, hcs1]
    · intro d hd
      rcases List.mem_cons.mp hd with rfl | hd
      · exact hs1
      · exact hsane d hd

theorem set_Sane (l : List SoundChannel) (i : Nat) (d : SoundChannel)
    (h : ∀ c ∈ l, c.Sane) (hd : d.Sane) : ∀ c ∈ l.set i d, c.Sane := by
  intro c hc
  rcases List.mem_or_eq_of_mem_set hc with hc | rfl
  · exact h c hc
  · exact hd

theorem SetSize_Sane (s s1 : SoundChannels) (size : Int)
    (hs : (s.SetSize size).map Prod.fst = some s1)
    (h : ∀ c ∈ s.channels, c.Sane) : ∀ c ∈ s1.channels, c.Sane := by
  have h0 := (SoundChannels.SetSize_length s s1 size hs).1
  obtain ⟨n, rfl⟩ : ∃ n : Nat, size = (n : Int) := ⟨size.toNat, by omega⟩
  rw [SoundChannels.SetSize_pool_eq] at hs
  cases hs
  intro c hc
  rcases List.mem_append.mp hc with hc | hc
  · exact h c (List.mem_of_mem_take hc)
  · rw [(List.mem_replicate.mp hc).2]
    exact Sane_default

theorem New_Sane (s s1 : SoundChannels) (ch : Int) (lowpriority : Bool) (r : Option Nat)
    (hn : s.New ch lowpriority = some (s1, r)) (h : ∀ c ∈ s.channels, c.Sane) :
    ∀ c ∈ s1.channels, c.Sane := by
  unfold SoundChannels.New at hn
  simp only at hn
  split at hn
  · split at hn
    · simp only [Option.some.injEq, Prod.mk.injEq] at hn
      rw [← hn.1]
      exact h
    · split at hn
      · cases hn
      · rename_i s2 hs2
        have hl2 : ∀ c ∈ s2.channels, c.Sane := by
          split at hs2
          · exact SetSize_Sane s s2 _ hs2 h
          · simp only [Option.some.injEq] at hs2
            rw [← hs2]
            exact h
        split at hn
        · cases hn
        · rename_i c0 hc0
          simp only [Option.some.injEq, Prod.mk.injEq] at hn
          rw [← hn.1]
          exact set_Sane _ _ _ hl2 (Sane_Stop c0 (hl2 c0 (List.getElem?_mem hc0)))
  · split at hn
    · cases hn
    · rename_i s2 hs2
      have hl2 : ∀ c ∈ s2.channels, c.Sane := by
        split at hs2
        · exact SetSize_Sane s s2 _ hs2 h
        · simp only [Option.some.injEq] at hs2
          rw [← hs2]
          exact h
      split at hn
      · cases hn
      · simp only [Option.some.injEq, Prod.mk.injEq] at hn
        rw [← hn.1]
        exact hl2

theorem PoolOp_apply_Sane (s s1 : SoundChannels) (op : PoolOp) (ha : op.apply s = some s1)
    (h : ∀ c ∈ s.channels, c.Sane) : ∀ c ∈ s1.channels, c.Sane := by
  cases op with
  | SetSize size => exact SetSize_Sane s s1 size ha h
  | New ch lowpriority =>
    simp only [PoolOp.apply] at ha
    cases hn : s.New ch lowpriority with
    | none => rw [hn] at ha; cases ha
    | some pr =>
      obtain ⟨s2, r⟩ := pr
      rw [hn] at ha
      simp only [Option.some.injEq] at ha
      rw [← ha]
      exact New_Sane s s2 ch lowpriority r hn h
  | reserveChannel =>
    simp only [PoolOp.apply, Option.some.injEq] at ha
    rw [← ha]
    exact h
  | Play slot sound loop freqmul =>
    simp only [PoolOp.apply] at ha
    cases hc : s.channels[slot]? with
    | none => rw [hc] at ha; cases ha
    | some c =>
      rw [hc] at ha
      simp only [Option.some.injEq] at ha
      rw [← ha]
      exact set_Sane _ _ _ h (Sane_Play c sound loop freqmul (h c (List.getElem?_mem hc)))
  | Stop slot =>
    simp only [PoolOp.apply] at ha
    cases hc : s.channels[slot]? with
    | none => rw [hc] at ha; cases ha
    | some c =>
      rw [hc] at ha
      simp only [Option.some.injEq] at ha
      rw [← ha]
      exact set_Sane _ _ _ h (Sane_Stop c (h c (List.getElem?_mem hc)))
  | Tick =>
    simp only [PoolOp.apply, SoundChannels.Tick] at ha
    obtain ⟨l1, hl1, hsane⟩ := tickAll_Sane s.channels h
    rw [hl1] at ha
    simp only [Option.some.injEq] at ha
    rw [← ha]
    exact hsane

theorem PoolCall_apply_Sane (s s1 : SoundChannels) (call : PoolCall)
    (ha : call.apply s = some s1) (h : ∀ c ∈ s.channels, c.Sane) :
    ∀ c ∈ s1.channels, c.Sane := by
  cases call with
  | pool op => exact PoolOp_apply_Sane s s1 op ha h
  | SetVolume slot vol =>
    simp only [PoolCall.apply] at ha
    cases hc : s.channels[slot]? with
    | none => rw [hc] at ha; cases ha
    | some c =>
      obtain ⟨c1, hc1, hs1, _⟩ := SetVolume_Sane c vol (h c (List.getElem?_mem hc))
      rw [hc] at ha
      simp only [hc1, Option.some.injEq] at ha
      rw [← ha]
      exact set_Sane _ _ _ h hs1
  | SetPan slot p ls x =>
    simp only [PoolCall.apply] at ha
    cases hc : s.channels[slot]? with
    | none => rw [hc] at ha; cases ha
    | some c =>
      obtain ⟨c1, hc1, hs1, _⟩ := SetPan_Sane c p ls x (h c (List.getElem?_mem hc))
      rw [hc] at ha
      simp only [hc1, Option.some.injEq] at ha
      rw [← ha]
      exact set_Sane _ _ _ h hs1

theorem runCalls_Sane (calls : List PoolCall) : ∀ (s s1 : SoundChannels),
    runCalls s calls = some s1 → (∀ c ∈ s.channels, c.Sane) → ∀ c ∈ s1.channels, c.Sane := by
  induction calls with
  | nil =>
    intro s s1 hr h
    simp only [runCalls, Option.some.injEq] at hr
    rw [← hr]
    exact h
  | cons call calls ih =>
    intro s s1 hr h
    rw [runCalls] at hr
    cases ha : call.apply s with
    | none => rw [ha] at hr; cases hr
    | some s2 =>
      rw [ha] at hr
      exact ih s2 s1 hr (PoolCall_apply_Sane s s2 call ha h)

/-- Every slot of a pool reached from `newSoundChannels` is sane. -/
theorem reachable_Sane (size : Int) (calls : List PoolCall) (s0 s : SoundChannels)
    (h0 : SoundChannels.newSoundChannels size = some s0) (hrun : runCalls s0 calls = some s) :
    ∀ c ∈ s.channels, c.Sane :=
  runCalls_Sane calls s0 s hrun
    (SetSize_Sane ⟨[]⟩ s0 size h0 (fun c hc => by cases hc))

/-- C20: in every pool state reached from `newSoundChannels` through `SetSize`, `New`,
`reserveChannel`, `Play`, `Stop`, `SetVolume`, `SetPan` and `Tick` calls, every slot with a
bound asset has its cursor, its effect stage and its `ctrl` set; hence `Tick` on that state
returns without a nil dereference, and so do `SetVolume` and `SetPan` on each of its
slots. -/
theorem reachable_built (size : Int) (calls : List PoolCall) (s0 s : SoundChannels)
    (h0 : SoundChannels.newSoundChannels size = some s0) (hrun : runCalls s0 calls = some s) :
    (∀ c ∈ s.channels, c.IsPlaying = true →
      c.streamer.isSome = true ∧ c.sfx.isSome = true ∧ c.ctrl.isSome = true) ∧
    (∃ s1, s.Tick = some s1) ∧
    (∀ c ∈ s.channels, ∀ vol, ∃ c1, c.SetVolume vol = some c1) ∧
    (∀ c ∈ s.channels, ∀ p ls x, ∃ c1, c.SetPan p ls x = some c1) := by
  have hs := reachable_Sane size calls s0 s h0 hrun
  refine ⟨fun c hc hp => hs c hc (Or.inl hp), ?_, ?_, ?_⟩
  · obtain ⟨l1, hl1, _⟩ := tickAll_Sane s.channels hs
    exact ⟨⟨l1⟩, by rw [SoundChannels.Tick, hl1]⟩
  · intro c hc vol
    obtain ⟨c1, hc1, _⟩ := SetVolume_Sane c vol (hs c hc)
    exact ⟨c1, hc1⟩
  · intro c hc p ls x
    obtain ⟨c1, hc1, _⟩ := SetPan_Sane c p ls x (hs c hc)
    exact ⟨c1, hc1⟩

theorem reachable_built_witness :
    (∀ c ∈ [(⟨some ⟨0, 1⟩, some ⟨1, 100, 0, 0, none⟩, some ⟨none, false⟩, none⟩ : SoundChannel),
          SoundChannel.Play default (some (newSound 8000)) true 2],
      c.IsPlaying = true →
        c.streamer.isSome = true ∧ c.sfx.isSome = true ∧ c.ctrl.isSome = true) ∧
    (∃ s1, SoundChannels.Tick
      ⟨[⟨some ⟨0, 1⟩, some ⟨1, 100, 0, 0, none⟩, some ⟨none, false⟩, none⟩,
        SoundChannel.Play default (some (newSound 8000)) true 2]⟩ = some s1) :=
  have h := reachable_built 2
    [.pool (.Play 0 (some ⟨⟨8000, 2, 4⟩, [(1, -1)]⟩) false 1), .SetVolume 0 100,
      .pool (.Stop 0), .SetVolume 1 7,
      .pool (.Play 1 (some (newSound 8000)) true 2), .pool .reserveChannel]
    ⟨[default, default]⟩
    ⟨[⟨some ⟨0, 1⟩, some ⟨1, 100, 0, 0, none⟩, some ⟨none, false⟩, none⟩,
      SoundChannel.Play default (some (newSound 8000)) true 2]⟩
    (by decide) (by decide)
  ⟨h.1, h.2.1⟩

/-- The behaviour of `Snd.play` on a pool whose slots are sane. -/
theorem Snd_play_of_Sane (bank : Snd) (pool : SoundChannels) (gn : Int × Int)
    (volumescale : Int) (pan : F32) (hs : ∀ c ∈ pool.channels, c.Sane) :
    ∃ pool1 b, bank.play pool gn volumescale pan = some (pool1, b) ∧
      (b = true ↔ (∃ c ∈ pool.channels, c.IsPlaying = false) ∧
        (bank.table.get gn).isSome = true) ∧
      (b = false →
        pool1.channels.map (fun c => c.sound) = pool.channels.map (fun c => c.sound)) := by
  obtain ⟨hsome, hnone⟩ := SoundChannels.reserveFrom_spec pool.channels 0
  cases hr : pool.reserveChannel with
  | none =>
    refine ⟨pool, false, ?_, ?_, fun _ => rfl⟩
    · simp only [Snd.play, hr]
    · have hall := hnone.mp hr
      constructor
      · intro h
        cases h
      · rintro ⟨⟨c, hc, hp⟩, _⟩
        rw [hall c hc] at hp
        cases hp
  | some i =>
    obtain ⟨j, hj, ⟨c, hc, hfree⟩, _⟩ := (hsome i).mp hr
    have hij : i = j := by omega
    subst hij
    have hcm : c ∈ pool.channels := List.getElem?_mem hc
    have hfreeslot : ∃ c ∈ pool.channels, c.IsPlaying = false := ⟨c, hcm, hfree⟩
    have hsane1 : (c.Play (bank.Get gn) false 1).Sane := Sane_Play c _ _ _ (hs c hcm)
    obtain ⟨c2, hc2, hs2, hsnd2⟩ := SetVolume_Sane (c.Play (bank.Get gn) false 1)
      (F32.ofInt (volumeArg volumescale)) hsane1
    obtain ⟨c3, hc3, _, hsnd3⟩ := SetPan_Sane c2 pan 0 none hs2
    refine ⟨⟨pool.channels.set i c3⟩, (bank.Get gn).isSome, ?_, ?_, ?_⟩
    · simp only [Snd.play, hr, hc, hc2, hc3]
    · constructor
      · intro h
        exact ⟨hfreeslot, h⟩
      · rintro ⟨_, h⟩
        exact h
    · intro hb
      have hget : bank.Get gn = none := by
        cases hg : bank.Get gn with
        | none => rfl
        | some v => rw [hg] at hb; cases hb
      have hsound : c3.sound = c.sound := by
        rw [hsnd3, hsnd2, hget]
        rfl
      show (pool.channels.set i c3).map (fun c => c.sound) = pool.channels.map (fun c => c.sound)
      rw [List.map_set, hsound]
      apply List.ext_getElem?
      intro n
      rw [List.getElem?_set]
      by_cases hin : i = n
      · subst hin
        rw [if_pos rfl, List.getElem?_map, hc]
        simp only [List.length_map, Option.map_some']
        have hlt : i < pool.channels.length := by
          by_contra hcon
          rw [List.getElem?_eq_none (by omega)] at hc
          cases hc
        rw [if_pos hlt]
      · rw [if_neg hin]

/-- C12: on every pool the program can reach and for every bank, `Snd.play` returns (it
does not panic); it returns true exactly when the pool has a free slot and the map of the
bank holds the key; and whenever it returns false the asset bound to each slot is what it
was, so the same voices are playing. -/
theorem Snd_play_spec (bank : Snd) (gn : Int × Int) (volumescale : Int) (pan : F32)
    (size : Int) (calls : List PoolCall) (s0 pool : SoundChannels)
    (h0 : SoundChannels.newSoundChannels size = some s0)
    (hrun : runCalls s0 calls = some pool) :
    ∃ pool1 b, bank.play pool gn volumescale pan = some (pool1, b) ∧
      (b = true ↔ (∃ c ∈ pool.channels, c.IsPlaying = false) ∧
        (bank.table.get gn).isSome = true) ∧
      (b = false →
        pool1.channels.map (fun c => c.sound) = pool.channels.map (fun c => c.sound)) :=
  Snd_play_of_Sane bank pool gn volumescale pan (reachable_Sane size calls s0 pool h0 hrun)

theorem Snd_play_spec_witness :
    ∃ pool1 b, (⟨[((1, 0), newSound 8000)], 4, 0⟩ : Snd).play
        ⟨[SoundChannel.Stop (SoundChannel.Play default (some (newSound 8000)) false 1)]⟩
        (7, 7) 100 0 = some (pool1, b) ∧ b = false ∧
      pool1.channels.map (fun c => c.sound) = [none] := by
  obtain ⟨pool1, b, h, hiff, hfalse⟩ := Snd_play_spec ⟨[((1, 0), newSound 8000)], 4, 0⟩ (7, 7)
    100 0 1 [.pool (.Play 0 (some (newSound 8000)) false 1), .pool (.Stop 0)]
    ⟨[default]⟩
    ⟨[SoundChannel.Stop (SoundChannel.Play default (some (newSound 8000)) false 1)]⟩
    (by decide) (by decide)
  have hb : b = false := by
    cases hbb : b with
    | false => rfl
    | true =>
      have := (hiff.mp hbb).2
      exact absurd this (by decide)
  exact ⟨pool1, b, h, hb, hfalse hb⟩

/-! ## The effect stage: gains -/

/-- What `SetVolume` stores is NaN (when `vol` is NaN) or a number in `[0, 512]`. -/
theorem SetVolume_stored (vol : F32) :
    math.Max 0 (math.Min vol 512) = .nan ∨ (math.Max 0 (math.Min vol 512)).inRange = true := by
  cases vol with
  | nan => exact Or.inl rfl
  | inf s => cases s <;> (right; decide)
  | fin q =>
    refine Or.inr ?_
    show decide (0 ≤ max ((0 : Nat) : ℚ) (min q ((512 : Nat) : ℚ)) ∧
      max ((0 : Nat) : ℚ) (min q ((512 : Nat) : ℚ)) ≤ 512) = true
    rw [decide_eq_true_iff]
    exact ⟨le_trans (by norm_num) (le_max_left _ _), max_le (by norm_num) (by
      exact le_trans (min_le_right _ _) (by norm_num))⟩

/-- The stored volume of the effect stage of a channel, when there is one, is NaN or a
number in `[0, 512]`. -/
theorem ChannelOp_apply_volume (c c1 : SoundChannel) (op : ChannelOp)
    (ha : op.apply c = some c1)
    (h : ∀ e, c.sfx = some e → e.volume = .nan ∨ e.volume.inRange = true) :
    ∀ e, c1.sfx = some e → e.volume = .nan ∨ e.volume.inRange = true := by
  obtain ⟨streamer, sfx, ctrl, sound⟩ := c
  cases op with
  | Play snd loop freqmul =>
    simp only [ChannelOp.apply, Option.some.injEq] at ha
    subst ha
    cases snd with
    | none => exact h
    | some v =>
      intro e he
      simp only [SoundChannel.Play, Option.some.injEq] at he
      subst he
      right
      show F32.inRange 256 = true
      decide
  | SetVolume vol =>
    simp only [ChannelOp.apply, SoundChannel.SetVolume] at ha
    cases ctrl with
    | none =>
      simp only [Option.some.injEq] at ha
      subst ha
      exact h
    | some k =>
      cases sfx with
      | none => cases ha
      | some e0 =>
        simp only [Option.some.injEq] at ha
        subst ha
        intro e he
        simp only [Option.some.injEq] at he
        subst he
        exact SetVolume_stored vol
  | SetPan p ls x =>
    simp only [ChannelOp.apply, SoundChannel.SetPan] at ha
    cases ctrl with
    | none =>
      simp only [Option.some.injEq] at ha
      subst ha
      exact h
    | some k =>
      cases sfx with
      | none => cases ha
      | some e0 =>
        simp only [Option.some.injEq] at ha
        subst ha
        intro e he
        simp only [Option.some.injEq] at he
        subst he
        exact h e0 rfl

theorem runChannelOps_volume (ops : List ChannelOp) : ∀ (c c1 : SoundChannel),
    runChannelOps c ops = some c1 →
    (∀ e, c.sfx = some e → e.volume = .nan ∨ e.volume.inRange = true) →
    ∀ e, c1.sfx = some e → e.volume = .nan ∨ e.volume.inRange = true := by
  induction ops with
  | nil =>
    intro c c1 hr h
    simp only [runChannelOps, Option.some.injEq] at hr
    rw [← hr]
    exact h
  | cons op ops ih =>
    intro c c1 hr h
    rw [runChannelOps] at hr
    cases ha : op.apply c with
    | none => rw [ha] at hr; cases hr
    | some c2 =>
      rw [ha] at hr
      exact ih c2 c1 hr (ChannelOp_apply_volume c c2 op ha h)

/-- The two tests of lines 370 to 379 leave NaN as it is and bring everything else into
`[0, 512]`. -/
theorem clamp512_nan_or_inRange (v : F32) :
    (if v > 512 then 512 else if v < 0 then 0 else v) = .nan ∨
    (if v > 512 then (512 : F32) else if v < 0 then 0 else v).inRange = true := by
  cases v with
  | nan => exact Or.inl rfl
  | inf s => cases s <;> (right; decide)
  | fin q =>
    refine Or.inr ?_
    by_cases h1 : (512 : ℚ) < q
    · have h : (F32.fin q > 512) := by
        show decide (((512 : Nat) : ℚ) < q) = true
        rw [decide_eq_true_iff]
        exact_mod_cast h1
      rw [if_pos h]
      decide
    · have h : ¬ (F32.fin q > 512) := by
        show ¬ (decide (((512 : Nat) : ℚ) < q) = true)
        rw [decide_eq_true_iff]
        exact_mod_cast h1
      rw [if_neg h]
      by_cases h2 : q < 0
      · have h0 : (F32.fin q < 0) := by
          show decide (q < ((0 : Nat) : ℚ)) = true
          rw [decide_eq_true_iff]
          exact_mod_cast h2
        rw [if_pos h0]
        decide
      · have h0 : ¬ (F32.fin q < 0) := by
          show ¬ (decide (q < ((0 : Nat) : ℚ)) = true)
          rw [decide_eq_true_iff]
          exact_mod_cast h2
        rw [if_neg h0]
        show decide (0 ≤ q ∧ q ≤ 512) = true
        rw [decide_eq_true_iff]
        exact ⟨not_lt.mp h2, not_lt.mp h1⟩

/-- As far as the clamp goes: each gain is NaN or a number in `[0, 512]`, whenever the
stored volume is. -/
theorem gains_nan_or_inRange (sys : SysPan) (mem : Nat → F32) (e : SoundEffect)
    (hv : e.volume = .nan ∨ e.volume.inRange = true) :
    ((e.gains sys mem).1 = .nan ∨ (e.gains sys mem).1.inRange = true) ∧
    ((e.gains sys mem).2 = .nan ∨ (e.gains sys mem).2.inRange = true) := by
  unfold SoundEffect.gains
  split_ifs with h
  · exact ⟨clamp512_nan_or_inRange _, clamp512_nan_or_inRange _⟩
  · exact ⟨hv, hv⟩

/-- When stereo effects are disabled, or the effect has no pan reference and pan value 0,
both gains are the stored volume. -/
theorem gains_plain (sys : SysPan) (mem : Nat → F32) (e : SoundEffect)
    (h : sys.stereoEffects = false ∨ (e.x = none ∧ e.p = 0)) :
    e.gains sys mem = (e.volume, e.volume) := by
  unfold SoundEffect.gains
  have hc : (sys.stereoEffects && (e.x.isSome || decide (e.p ≠ 0))) = false := by
    rcases h with h | ⟨hx, hp⟩
    · rw [h]
      rfl
    · rw [hx, hp]
      simp
  rw [hc]
  rfl

/-- On every effect state reached on a channel through `Play`, `SetVolume` and `SetPan`
calls, each gain is NaN or a number in `[0, 512]`. -/
theorem effect_gains_nan_or_inRange (ops : List ChannelOp) (c : SoundChannel)
    (e : SoundEffect) (sys : SysPan) (mem : Nat → F32)
    (hrun : runChannelOps default ops = some c) (he : c.sfx = some e) :
    ((e.gains sys mem).1 = .nan ∨ (e.gains sys mem).1.inRange = true) ∧
    ((e.gains sys mem).2 = .nan ∨ (e.gains sys mem).2.inRange = true) :=
  gains_nan_or_inRange sys mem e
    (runChannelOps_volume ops default c hrun (fun e0 h0 => by cases h0) e he)

/-- C13 fails on the code: the gains can be NaN, which is not in `[0, 512]`. With stereo
effects enabled, `xmin = -160 < xmax = 160` and a panning range of 50: after `Play`,
`SetVolume(0)` and `SetPan(2^100, 2^100, nil)` the stored pan value `p * ls` has overflowed
to `+Inf`, so `r` is `-Inf` and both products `volume * 2 * (...)` are `0 * Inf`, which is
NaN; after `Play` and `SetPan(-2^100, 2^100, x)` with `*x = 2^100` (the volume is the 256 of
`Play`) the stored pan value is `-Inf` and `ls * *x` is `+Inf`, so `r` is `-Inf - (-Inf)`,
which is NaN. Both tests `> 512` and `< 0` are false on NaN, so the clamp leaves it. -/
theorem effect_gains_nan :
    runChannelOps default
        [.Play (some (newSound 8000)) false 1, .SetVolume 0,
          .SetPan (.fin (2 ^ 100)) (.fin (2 ^ 100)) none]
      = some ⟨some ⟨0, 0⟩, some ⟨1, 0, .fin (2 ^ 100), .inf false, none⟩,
          some ⟨some ⟨audioResampleQuality, 8000, 1⟩, false⟩, some (newSound 8000)⟩ ∧
    runChannelOps default
        [.Play (some (newSound 8000)) false 1,
          .SetPan (.fin (-(2 ^ 100))) (.fin (2 ^ 100)) (some 0)]
      = some ⟨some ⟨0, 0⟩, some ⟨1, 256, .fin (2 ^ 100), .inf true, some 0⟩,
          some ⟨some ⟨audioResampleQuality, 8000, 1⟩, false⟩, some (newSound 8000)⟩ ∧
    F32.fin (-160) < 160 ∧
    (⟨1, 0, .fin (2 ^ 100), .inf false, none⟩ : SoundEffect).gains
        ⟨true, .fin (-160), 160, 50⟩ (fun _ => 0) = (.nan, .nan) ∧
    (⟨1, 256, .fin (2 ^ 100), .inf true, some 0⟩ : SoundEffect).gains
        ⟨true, .fin (-160), 160, 50⟩ (fun _ => .fin (2 ^ 100)) = (.nan, .nan) ∧
    F32.inRange .nan = false := by
  refine ⟨?_, ?_, ?_, ?_, ?_, rfl⟩ <;> decide!

/-! ## The sound bank: bounded scans and decode failures -/

/-- A bounded scan (`max > 0`) that starts with an empty table is decided by the first
entry the predicate accepts. -/
theorem scanEntries_bounded (wavDecode : Decoder) (data : List UInt8)
    (keepItem : Int × Int → Bool) (max : Nat) (hmax : 0 < max) (vs : List SndEntry) :
    scanEntries wavDecode data keepItem max vs false [] =
      match vs.find? (fun e => keepItem e.key) with
      | none => (.ok [], false)
      | some e =>
        match readSound wavDecode (e.payload data) with
        | .error err => (.error err, true)
        | .ok tmp => (.ok [(e.key, tmp)], false) := by
  induction vs with
  | nil => rfl
  | cons e rest ih =>
    by_cases hk : keepItem e.key = true
    · rw [scanEntries, List.find?_cons]
      simp only [Bool.false_eq_true, if_false, hk, if_true, Table.get, gt_iff_lt, hmax]
      cases readSound wavDecode (e.payload data) with
      | error err => rfl
      | ok tmp => rfl
    · have hk2 : keepItem e.key = false := by simpa using hk
      rw [scanEntries, List.find?_cons, if_neg hk]
      simp only [Bool.false_eq_true, if_false, hk2]
      exact ih

theorem loops_eq_min (max n : Nat) (hmax : 0 < max) :
    (if max > 0 ∧ max < n then max else n) = min n max := by
  split_ifs with h
  · exact (min_eq_right (le_of_lt h.2)).symm
  · exact (min_eq_left (by omega)).symm

/-- C16: on a well-formed bank file with decodable payloads, for every predicate and every
`max > 0`, `LoadSndFiltered` returns without error and its result is decided by the first
`min(numberOfSounds, max)` entries of the chain alone: the map is empty when none of them
satisfies the predicate (whatever the later entries are), and otherwise it holds exactly
one key, that of the first of them satisfying the predicate, mapped to the asset decoded
from that entry. -/
theorem LoadSndFiltered_bounded (fs : String → Option (List UInt8)) (wavDecode : Decoder)
    (filename : String) (keepItem : Int × Int → Bool) (max : Nat)
    (data : List UInt8) (ver ver2 first : Nat) (es : List SndEntry)
    (hfs : fs filename = some data) (hwf : WellFormed data ver ver2 first es)
    (hdec : ∀ e ∈ es, ∃ s, readSound wavDecode (e.payload data) = .ok s) (hmax : 0 < max) :
    (List.find? (fun e => keepItem e.key) (es.take (min es.length max)) = none →
      LoadSndFiltered fs wavDecode filename keepItem max = some (.ok ⟨[], ver, ver2⟩)) ∧
    (∀ e, List.find? (fun e => keepItem e.key) (es.take (min es.length max)) = some e →
      ∃ s, readSound wavDecode (e.payload data) = .ok s ∧
        LoadSndFiltered fs wavDecode filename keepItem max
          = some (.ok ⟨[(e.key, s)], ver, ver2⟩)) := by
  have hload := LoadSndFiltered_wellFormed fs wavDecode filename keepItem max data ver ver2
    first es hfs hwf
  rw [loops_eq_min max es.length hmax, scanEntries_bounded wavDecode data keepItem max hmax]
    at hload
  constructor
  · intro hnone
    rw [hload, hnone]
    rfl
  · intro e hsome
    have hmem : e ∈ es := List.mem_of_mem_take (List.mem_of_find?_eq_some hsome)
    obtain ⟨s, hs⟩ := hdec e hmem
    refine ⟨s, hs, ?_⟩
    rw [hload, hsome]
    simp only [hs]
    rfl

theorem LoadSndFiltered_bounded_witness :
    (LoadSndFiltered (fun _ => some exampleBank) exampleDecode "bank.snd"
        (fun k => decide (k = exampleEntry2.key)) 1 = some (.ok ⟨[], 4, 0⟩)) ∧
    (LoadSndFiltered (fun _ => some exampleBank) exampleDecode "bank.snd"
        (fun _ => true) 1 = some (.ok ⟨[((1, 0), ⟨⟨8000, 2, 4⟩, [(1, -1)]⟩)], 4, 0⟩)) := by
  have hdec : ∀ e ∈ [exampleEntry1, exampleEntry2],
      ∃ s, readSound exampleDecode (e.payload exampleBank) = .ok s := by
    intro e he
    simp only [List.mem_cons, List.mem_singleton, List.not_mem_nil, or_false] at he
    rcases he with rfl | rfl
    · exact ⟨_, rfl⟩
    · exact ⟨_, rfl⟩
  constructor
  · exact (LoadSndFiltered_bounded (fun _ => some exampleBank) exampleDecode "bank.snd"
      (fun k => decide (k = exampleEntry2.key)) 1 exampleBank 4 0 24
      [exampleEntry1, exampleEntry2] rfl exampleBank_wellFormed hdec (by decide)).1 (by decide)
  · obtain ⟨s, hs, h⟩ := (LoadSndFiltered_bounded (fun _ => some exampleBank) exampleDecode
      "bank.snd" (fun _ => true) 1 exampleBank 4 0 24
      [exampleEntry1, exampleEntry2] rfl exampleBank_wellFormed hdec (by decide)).2
      exampleEntry1 rfl
    have hs1 : readSound exampleDecode (exampleEntry1.payload exampleBank)
        = .ok ⟨⟨8000, 2, 4⟩, [(1, -1)]⟩ := rfl
    rw [hs1] at hs
    cases hs
    exact h

/-- Once the file is closed the scan leaves it closed. -/
theorem scanEntries_closed (wavDecode : Decoder) (data : List UInt8)
    (keepItem : Int × Int → Bool) (max : Nat) (es : List SndEntry) (t : Table) :
    (scanEntries wavDecode data keepItem max es true t).2 = true := by
  cases es with
  | nil => rfl
  | cons e rest => rfl

/-- A scan that reaches an accepted entry whose payload does not decode leaves the file
closed, for every bound. -/
theorem scanEntries_failure_closed (wavDecode : Decoder) (data : List UInt8)
    (keepItem : Int × Int → Bool) (max : Nat) (pre : List SndEntry) (e : SndEntry)
    (post : List SndEntry) (err : Err) (hrej : ∀ p ∈ pre, keepItem p.key = false)
    (hkeep : keepItem e.key = true)
    (hfail : readSound wavDecode (e.payload data) = .error err) :
    (scanEntries wavDecode data keepItem max (pre ++ e :: post) false []).2 = true := by
  induction pre with
  | nil =>
    rw [List.nil_append, scanEntries]
    simp only [Bool.false_eq_true, if_false, hkeep, if_true, Table.get, hfail]
    split_ifs
    · rfl
    · exact scanEntries_closed wavDecode data keepItem max post []
  | cons p rest ih =>
    rw [List.cons_append, scanEntries, hrej p (List.mem_cons_self _ _)]
    simp only [Bool.false_eq_true, if_false]
    exact ih (fun q hq => hrej q (List.mem_cons_of_mem _ hq))

/-- On a well-formed bank file, whenever the scan reaches an accepted entry whose payload
does not decode (no entry before it is accepted, and it is among the first `max` entries
when `max > 0`), `LoadSndFiltered` does not return: `wav.Decode` has closed the file and the
deferred `chk(f.Close())` panics. -/
theorem LoadSndFiltered_panics_on_decode_failure (fs : String → Option (List UInt8))
    (wavDecode : Decoder) (filename : String) (keepItem : Int × Int → Bool) (max : Nat)
    (data : List UInt8) (ver ver2 first : Nat) (pre : List SndEntry) (e : SndEntry)
    (post : List SndEntry) (err : Err)
    (hfs : fs filename = some data) (hwf : WellFormed data ver ver2 first (pre ++ e :: post))
    (hrej : ∀ p ∈ pre, keepItem p.key = false) (hkeep : keepItem e.key = true)
    (hfail : readSound wavDecode (e.payload data) = .error err)
    (hreach : max = 0 ∨ pre.length < max) :
    LoadSndFiltered fs wavDecode filename keepItem max = none := by
  have hload := LoadSndFiltered_wellFormed fs wavDecode filename keepItem max data ver ver2
    first (pre ++ e :: post) hfs hwf
  have hlen : (pre ++ e :: post).length = pre.length + (post.length + 1) := by simp
  obtain ⟨m, hm⟩ : ∃ m, (if max > 0 ∧ max < (pre ++ e :: post).length then max
      else (pre ++ e :: post).length) = pre.length + (m + 1) := by
    split_ifs with hc
    · exact ⟨max - pre.length - 1, by omega⟩
    · exact ⟨post.length, hlen⟩
  have htake : (pre ++ e :: post).take (pre.length + (m + 1)) = pre ++ e :: post.take m := by
    rw [List.take_append_eq_append_take, List.take_of_length_le (by omega)]
    have htk : pre.length + (m + 1) - pre.length = m + 1 := by omega
    rw [htk, List.take_succ_cons]
  rw [hm, htake] at hload
  have hclosed := scanEntries_failure_closed wavDecode data keepItem max pre e (post.take m)
    err hrej hkeep hfail
  rw [hload]
  generalize scanEntries wavDecode data keepItem max (pre ++ e :: post.take m) false [] = r
    at hclosed
  obtain ⟨r, c⟩ := r
  simp only at hclosed
  subst hclosed
  cases r <;> rfl

theorem exampleBankBad_wellFormed :
    WellFormed exampleBankBad 4 0 24 [exampleEntryBad, exampleEntry2] :=
  ⟨by decide, by decide, by decide, by decide, by decide, by decide⟩

/-- C14 fails on the code: in the bank file `exampleBankBad` (well formed) the first entry
is accepted and its payload does not decode, the second entry decodes. The failed
`wav.Decode` has closed the file, so `LoadSndFiltered` panics in the deferred
`chk(f.Close())`: with `max = 1` it does not return the decode error, and with `max = 0` it
neither skips the entry nor loads the second one (the next read is on a closed file). -/
theorem LoadSndFiltered_decode_failure_panics :
    WellFormed exampleBankBad 4 0 24 [exampleEntryBad, exampleEntry2] ∧
    readSound exampleDecode (exampleEntryBad.payload exampleBankBad) = .error (.decode 7) ∧
    readSound exampleDecode (exampleEntry2.payload exampleBankBad)
      = .ok ⟨⟨11000, 2, 4⟩, [(1, -1)]⟩ ∧
    LoadSndFiltered (fun _ => some exampleBankBad) exampleDecode "bad.snd" (fun _ => true) 1
      = none ∧
    LoadSndFiltered (fun _ => some exampleBankBad) exampleDecode "bad.snd" (fun _ => true) 0
      = none ∧
    loadBody exampleDecode (fun _ => true) 1 ⟨exampleBankBad, 0⟩ = (.error (.decode 7), true) ∧
    loadBody exampleDecode (fun _ => true) 0 ⟨exampleBankBad, 0⟩ = (.error .closed, true) :=
  ⟨exampleBankBad_wellFormed, rfl, rfl, rfl, rfl, rfl, rfl⟩

/-! ## The normalizer: the gain -/

section NormalizerGain

variable {α : Type} [LinearOrderedField α]

/-- One step of the loop of `Stream`: the normalizer after the first frame is the state the
rest of the loop starts from. -/
theorem streamLoop_cons_fst (sys : Sys) (pow : α → α → α) (n : Normalizer α) (sl sr : α)
    (rest : List (α × α)) :
    (Normalizer.streamLoop sys pow n ((sl, sr) :: rest)).1 =
      (Normalizer.streamLoop sys pow
        ⟨if sys.audioDucking then
            min 16 (min (n.l.process pow n.mul sl).2.1 (n.r.process pow n.mul sr).2.1)
          else 1 / 2 * ((sys.wavVolume : α) * (sys.masterVolume : α) * (1 / 10000)),
          (n.l.process pow n.mul sl).1, (n.r.process pow n.mul sr).1⟩ rest).1 := rfl

theorem streamLoop_mul_static (sys : Sys) (pow : α → α → α) (hduck : sys.audioDucking = false)
    (fr : α × α) (rest : List (α × α)) :
    ∀ n : Normalizer α, (Normalizer.streamLoop sys pow n (fr :: rest)).1.mul = staticGain sys := by
  induction rest generalizing fr with
  | nil =>
    intro n
    obtain ⟨sl, sr⟩ := fr
    rw [streamLoop_cons_fst, hduck]
    rfl
  | cons fr2 rest ih =>
    intro n
    obtain ⟨sl, sr⟩ := fr
    rw [streamLoop_cons_fst]
    exact ih fr2 _

/-- C11, as the code has it: the gain is rewritten once per processed frame. With ducking
disabled, for every prior normalizer state and every batch pulled from the wrapped source,
`Stream` returns; when the batch has at least one frame the gain afterwards is
`0.5 * wavVolume * masterVolume * 0.0001`, whatever the samples are, and when the batch is
empty the normalizer, its gain included, is left as it was. -/
theorem normalizer_gain_static (sys : Sys) (pow : α → α → α)
    (inner : List (α × α) → List (α × α) × Nat × Bool) (n : Normalizer α)
    (samples : List (α × α)) (hduck : sys.audioDucking = false)
    (hs : (inner samples).2.1 ≤ (inner samples).1.length) :
    ∃ n1 out, Normalizer.Stream sys pow inner n samples
        = some (n1, out, (inner samples).2.1, (inner samples).2.2) ∧
      (0 < (inner samples).2.1 →
        n1.mul = 1 / 2 * ((sys.wavVolume : α) * (sys.masterVolume : α) * (1 / 10000))) ∧
      ((inner samples).2.1 = 0 → n1 = n) := by
  refine ⟨(Normalizer.streamLoop sys pow n ((inner samples).1.take (inner samples).2.1)).1,
    (Normalizer.streamLoop sys pow n ((inner samples).1.take (inner samples).2.1)).2
      ++ (inner samples).1.drop (inner samples).2.1, ?_, ?_, ?_⟩
  · unfold Normalizer.Stream
    simp only [gt_iff_lt, not_lt.mpr hs, if_false]
  · intro hpos
    cases hf : (inner samples).1.take (inner samples).2.1 with
    | nil =>
      have hl := congrArg List.length hf
      simp only [List.length_take, List.length_nil] at hl
      omega
    | cons fr rest => exact streamLoop_mul_static sys pow hduck fr rest n
  · intro h0
    rw [h0, List.take_zero]
    rfl

theorem normalizer_gain_static_witness :
    ∃ n1 out, Normalizer.Stream ⟨false, 80, 80⟩ (fun x _ : ℚ => x)
        (fun b => (b, 1, true)) NewNormalizer [(1 / 2, -1 / 2)] = some (n1, out, 1, true) ∧
      n1.mul = 8 / 25 := by
  obtain ⟨n1, out, h, hpos, _⟩ := normalizer_gain_static ⟨false, 80, 80⟩ (fun x _ : ℚ => x)
    (fun b => (b, 1, true)) NewNormalizer [(1 / 2, -1 / 2)] rfl (by decide)
  refine ⟨n1, out, h, ?_⟩
  rw [hpos (by decide)]
  norm_num

/-- C11 fails as stated: with ducking disabled (volumes 80 and 80, so the static value is
`8/25`), a fresh normalizer and a batch in which the source delivers no frame, the gain
after `Stream` is still the prior gain 4; with a batch of one frame it is `8/25`. Two
batches under the same configuration leave different gains. -/
theorem normalizer_gain_static_counterexample :
    Normalizer.Stream ⟨false, 80, 80⟩ (fun x _ : ℚ => x) (fun b => (b, 0, false))
        NewNormalizer [(1 / 2, -1 / 2)]
      = some (NewNormalizer, [(1 / 2, -1 / 2)], 0, false) ∧
    (NewNormalizer : Normalizer ℚ).mul = 4 ∧
    (4 : ℚ) ≠ 1 / 2 * (((80 : Int) : ℚ) * ((80 : Int) : ℚ) * (1 / 10000)) ∧
    (Normalizer.streamLoop ⟨false, 80, 80⟩ (fun x _ : ℚ => x) NewNormalizer
        [(1 / 2, -1 / 2)]).1.mul = 8 / 25 := by
  refine ⟨rfl, rfl, by norm_num, ?_⟩
  rw [streamLoop_mul_static ⟨false, 80, 80⟩ _ rfl]
  norm_num [staticGain]

theorem process_heri_eq (pow : α → α → α) (n : NormalizerLR α) (bai sam : α) :
    (n.process pow bai sam).1.heri =
      if n.heri + (n.process pow bai sam).1.herihenka < 0 then 0
      else if n.heri + (n.process pow bai sam).1.herihenka > 0 then 1
      else n.heri + (n.process pow bai sam).1.herihenka := rfl

end NormalizerGain

/-- C15 fails on the code: on the first sample of a fresh normalizer channel (state
`1, 0, 1, 1/32, 0, 0`, gain 4, sample 0) the updated ramp rate is `-1/204800`, so the old
coefficient plus the ramp rate is `204799/204800`, strictly between 0 and 1, and the
saturating clamp would keep it; `process` stores 1, because its upper test is `heri > 0`
and not `heri > 1`. -/
theorem process_heri_fresh (pow : ℚ → ℚ → ℚ) :
    ((NewNormalizer : Normalizer ℚ).l.process pow 4 0).1.herihenka = -1 / 204800 ∧
    (NewNormalizer : Normalizer ℚ).l.heri
      + ((NewNormalizer : Normalizer ℚ).l.process pow 4 0).1.herihenka = 204799 / 204800 ∧
    min 1 (max 0 ((204799 : ℚ) / 204800)) = 204799 / 204800 ∧
    ((NewNormalizer : Normalizer ℚ).l.process pow 4 0).1.heri = 1 := by
  have hh : ((NewNormalizer : Normalizer ℚ).l.process pow 4 0).1.herihenka = -1 / 204800 := by
    simp only [NormalizerLR.process, NewNormalizer, audioFrequency]
    norm_num
  refine ⟨hh, ?_, ?_, ?_⟩
  · rw [hh]
    simp only [NewNormalizer]
    norm_num
  · rw [max_eq_right (by norm_num), min_eq_right (by norm_num)]
  · rw [process_heri_eq, hh]
    simp only [NewNormalizer]
    norm_num

/-! ## The normalizer: bounds of the gain under ducking -/

/-- The gain nudge of the normal branch keeps a non-negative gain non-negative. -/
theorem gain_step_nonneg {α : Type} [LinearOrderedField α] (bai heri heikin fue tmp : α)
    (hbai : 0 ≤ bai) (hheri : 0 ≤ heri ∧ heri ≤ 1) (hfue : 32 / 33 ≤ fue ∧ fue ≤ 32)
    (hheikin : 0 ≤ heikin ∧ heikin ≤ 1) (htmp : -(1 / 8) ≤ tmp ∧ tmp ≤ 1 / 8) :
    0 ≤ bai + bai * (heri * (1 / 32 - heikin) / fue + tmp * fue * (1 - heri) / 32) / 12001 := by
  have hfpos : 0 < fue := lt_of_lt_of_le (by norm_num) hfue.1
  have h1 : -(33 / 32) ≤ heri * (1 / 32 - heikin) / fue := by
    rw [le_div_iff₀ hfpos]
    nlinarith [mul_nonneg hheri.1 hheikin.1, mul_nonneg hheri.1 (sub_nonneg.mpr hheikin.2)]
  have h2 : -4 ≤ tmp * fue * (1 - heri) := by
    have ha : 0 ≤ (tmp + 1 / 8) * fue := mul_nonneg (by linarith) (le_of_lt hfpos)
    have hb : 0 ≤ (tmp * fue + 4) * (1 - heri) := mul_nonneg (by nlinarith) (by linarith)
    nlinarith
  have h3 : -2 ≤ heri * (1 / 32 - heikin) / fue + tmp * fue * (1 - heri) / 32 := by
    have : -(1 / 8) ≤ tmp * fue * (1 - heri) / 32 := by
      rw [le_div_iff₀ (by norm_num)]
      linarith
    linarith
  have h4 : 0 ≤ bai * (1 + (heri * (1 / 32 - heikin) / fue + tmp * fue * (1 - heri) / 32) / 12001) := by
    apply mul_nonneg hbai
    have : -(2 / 12001) ≤ (heri * (1 / 32 - heikin) / fue + tmp * fue * (1 - heri) / 32) / 12001 := by
      rw [le_div_iff₀ (by norm_num)]
      linarith
    linarith
  have h5 : bai + bai * (heri * (1 / 32 - heikin) / fue + tmp * fue * (1 - heri) / 32) / 12001
      = bai * (1 + (heri * (1 / 32 - heikin) / fue + tmp * fue * (1 - heri) / 32) / 12001) := by
    ring
  rw [h5]
  exact h4

/-- Bounds of the bump `(1 - (1-x)^64) * (1/2 - x)^3` for `x` in `[0, 1]`. -/
theorem bump_bounds (x : ℝ) (h0 : 0 ≤ x) (h1 : x ≤ 1) :
    -(1 / 8) ≤ (1 - (1 - x) ^ (64 : ℝ)) * (1 / 2 - x) ^ (3 : ℝ) ∧
    (1 - (1 - x) ^ (64 : ℝ)) * (1 / 2 - x) ^ (3 : ℝ) ≤ 1 / 8 := by
  have e64 : (1 - x) ^ (64 : ℝ) = (1 - x) ^ (64 : ℕ) := by
    rw [← Real.rpow_natCast]; norm_num
  have e3 : (1 / 2 - x) ^ (3 : ℝ) = (1 / 2 - x) ^ (3 : ℕ) := by
    rw [← Real.rpow_natCast]; norm_num
  rw [e64, e3]
  have hu0 : 0 ≤ (1 - x) ^ 64 := pow_nonneg (by linarith) _
  have hu1 : (1 - x) ^ 64 ≤ 1 := pow_le_one₀ (by linarith) (by linarith)
  have hw : |(1 / 2 - x) ^ 3| ≤ 1 / 8 := by
    rw [abs_pow]
    have : |1 / 2 - x| ≤ 1 / 2 := abs_le.mpr ⟨by linarith, by linarith⟩
    calc |1 / 2 - x| ^ 3 ≤ (1 / 2) ^ 3 := pow_le_pow_left₀ (abs_nonneg _) this 3
      _ = 1 / 8 := by norm_num
  obtain ⟨hw1, hw2⟩ := abs_le.mp hw
  have hA0 : 0 ≤ 1 - (1 - x) ^ 64 := sub_nonneg.mpr hu1
  have hA1 : 1 - (1 - x) ^ 64 ≤ 1 := by linarith
  generalize 1 - (1 - x) ^ 64 = A at hA0 hA1
  generalize (1 / 2 - x) ^ 3 = W at hw1 hw2
  constructor
  · have := mul_nonneg hA0 (by linarith : (0:ℝ) ≤ W + 1 / 8)
    nlinarith
  · have := mul_nonneg hA0 (by linarith : (0:ℝ) ≤ 1 / 8 - W)
    nlinarith

section NormalizerBounds

variable {α : Type} [LinearOrderedField α]

theorem process_fue_eq (pow : α → α → α) (n : NormalizerLR α) (bai sam : α) :
    (n.process pow bai sam).1.fue =
      n.fue + (1 - n.fue * (|(n.process pow bai sam).2.2| + 1 / 32)) /
        ((audioFrequency : α) * 2) := rfl

theorem process_heikin_eq (pow : α → α → α) (n : NormalizerLR α) (bai sam : α) :
    (n.process pow bai sam).1.heikin =
      n.heikin + (|(n.process pow bai sam).2.2| - n.heikin) / ((audioFrequency : α) * 2) := rfl

theorem process_InBounds (pow : α → α → α) (n : NormalizerLR α) (bai sam : α)
    (h : n.InBounds) : (n.process pow bai sam).1.InBounds := by
  obtain ⟨_, ⟨hf0, hf1⟩, ⟨hk0, hk1⟩⟩ := h
  have hx1 := process_abs_le_one pow n bai sam
  have hx0 : 0 ≤ |(n.process pow bai sam).2.2| := abs_nonneg _
  have hD : ((audioFrequency : ℕ) : α) * 2 = 96000 := by
    norm_num [audioFrequency]
  refine ⟨?_, ?_, ?_⟩
  · rw [process_heri_eq]
    split_ifs with h1 h2
    · exact ⟨le_refl _, zero_le_one⟩
    · exact ⟨zero_le_one, le_refl _⟩
    · have : n.heri + (n.process pow bai sam).1.herihenka = 0 :=
        le_antisymm (not_lt.mp h2) (not_lt.mp h1)
      rw [this]
      exact ⟨le_refl _, zero_le_one⟩
  · rw [process_fue_eq, hD]
    generalize |(n.process pow bai sam).2.2| = x at hx0 hx1
    constructor
    · have key : 0 ≤ (n.fue - 32 / 33) * (96000 - (x + 1 / 32)) + (1 - 32 / 33 * (x + 1 / 32)) :=
        add_nonneg (mul_nonneg (by linarith) (by linarith)) (by linarith)
      have e : n.fue + (1 - n.fue * (x + 1 / 32)) / 96000 = 32 / 33 +
          ((n.fue - 32 / 33) * (96000 - (x + 1 / 32)) + (1 - 32 / 33 * (x + 1 / 32))) / 96000 := by
        ring
      rw [e]
      have := div_nonneg key (by norm_num : (0 : α) ≤ 96000)
      linarith
    · have key : 0 ≤ (32 - n.fue) * (96000 - (x + 1 / 32)) + (32 * (x + 1 / 32) - 1) :=
        add_nonneg (mul_nonneg (by linarith) (by linarith)) (by linarith)
      have e : n.fue + (1 - n.fue * (x + 1 / 32)) / 96000 = 32 -
          ((32 - n.fue) * (96000 - (x + 1 / 32)) + (32 * (x + 1 / 32) - 1)) / 96000 := by
        ring
      rw [e]
      have := div_nonneg key (by norm_num : (0 : α) ≤ 96000)
      linarith
  · rw [process_heikin_eq, hD]
    generalize |(n.process pow bai sam).2.2| = x at hx0 hx1
    have e : n.heikin + (x - n.heikin) / 96000 = (95999 * n.heikin + x) / 96000 := by ring
    rw [e]
    constructor
    · exact div_nonneg (by linarith) (by norm_num)
    · rw [div_le_iff₀ (by norm_num)]
      linarith

end NormalizerBounds

/-- With real samples and `math.Pow` as the real power, `process` returns a non-negative
gain when it is given one and the channel state is within its bounds. -/
theorem process_gain_nonneg (n : NormalizerLR ℝ) (bai sam : ℝ) (h : n.InBounds)
    (hbai : 0 ≤ bai) : 0 ≤ (n.process (fun x y => x ^ y) bai sam).2.1 := by
  have hD : ((audioFrequency : ℕ) : ℝ) * 2 / 8 + 1 = 12001 := by
    norm_num [audioFrequency]
  unfold NormalizerLR.process
  simp only
  split_ifs with hov
  · exact mul_nonneg hbai (Real.rpow_nonneg (abs_nonneg _) _)
  · rw [hD]
    exact gain_step_nonneg _ _ _ _ _ hbai h.1 h.2.1 h.2.2
      (bump_bounds _ (abs_nonneg _) (not_lt.mp hov))

theorem streamLoop_ducking_inv (sys : Sys) (hduck : sys.audioDucking = true)
    (frames : List (ℝ × ℝ)) : ∀ n : Normalizer ℝ,
    (0 ≤ n.mul ∧ n.mul ≤ 16) → n.l.InBounds → n.r.InBounds →
    (0 ≤ (Normalizer.streamLoop sys (fun x y => x ^ y) n frames).1.mul ∧
      (Normalizer.streamLoop sys (fun x y => x ^ y) n frames).1.mul ≤ 16) := by
  induction frames with
  | nil =>
    intro n hm _ _
    exact hm
  | cons fr rest ih =>
    intro n hm hl hr
    obtain ⟨sl, sr⟩ := fr
    rw [streamLoop_cons_fst]
    apply ih
    · simp only [hduck, if_true]
      exact ⟨le_min (by norm_num) (le_min (process_gain_nonneg n.l n.mul sl hl hm.1)
        (process_gain_nonneg n.r n.mul sr hr hm.1)), min_le_left _ _⟩
    · exact process_InBounds _ n.l n.mul sl hl
    · exact process_InBounds _ n.r n.mul sr hr

/-- C19: with ducking enabled, starting from a fresh normalizer (gain 4, both channel
states at their initial values), with real samples and `math.Pow` as the real power: for
every finite sequence of input frames and every `k`, the gain held by the normalizer after
the first `k` frames have been processed is at least 0 and at most 16. -/
theorem ducking_gain_bounded (sys : Sys) (hduck : sys.audioDucking = true)
    (frames : List (ℝ × ℝ)) (k : Nat) :
    0 ≤ (Normalizer.streamLoop sys (fun x y => x ^ y) NewNormalizer (frames.take k)).1.mul ∧
    (Normalizer.streamLoop sys (fun x y => x ^ y) NewNormalizer (frames.take k)).1.mul ≤ 16 := by
  apply streamLoop_ducking_inv sys hduck
  · simp only [NewNormalizer]
    norm_num
  · simp only [NewNormalizer, NormalizerLR.InBounds]
    norm_num
  · simp only [NewNormalizer, NormalizerLR.InBounds]
    norm_num

theorem ducking_gain_bounded_witness :
    0 ≤ (Normalizer.streamLoop ⟨true, 80, 80⟩ (fun x y : ℝ => x ^ y) NewNormalizer
      (List.take 1 [(1 / 2, -1 / 2), (3, 0)])).1.mul ∧
    (Normalizer.streamLoop ⟨true, 80, 80⟩ (fun x y : ℝ => x ^ y) NewNormalizer
      (List.take 1 [(1 / 2, -1 / 2), (3, 0)])).1.mul ≤ 16 :=
  ducking_gain_bounded ⟨true, 80, 80⟩ rfl [(1 / 2, -1 / 2), (3, 0)] 1

end Ikemen
